import Mathlib

/-!
Verification of the CRM data-accuracy repository: a shallow embedding of
`cleaner.py`, `validator.py`, `duplicate_resolution.py` and
`duplicate_detection.py` over tables of optional string cells, together with
theorems settling the frozen claims about the specification.

Modelling conventions:
* A table is a column-name list plus rows of `Option String` cells; `none`
  models pandas `NaN` (missing).  The repository's pipeline treats every cell
  as an optional scalar rendered from strings, so this is the code's domain.
* Fallible code paths (places where the Python could raise) return
  `Except String`; the orchestrator's `try/except` becomes a `match` on it.
* External libraries (pandas numeric/date coercion, `phonenumbers`,
  `fuzzywuzzy.process.extract`) are modelled explicitly where noted or taken
  as parameters.
-/

/-- Decidable equality of `Except` results, component-wise (used to
evaluate concrete pipeline runs in witnesses). -/
instance exceptDecEq {e a : Type} [DecidableEq e] [DecidableEq a] :
    DecidableEq (Except e a) := fun x y =>
  match x, y with
  | .ok v, .ok w =>
    if h : v = w then .isTrue (by rw [h])
    else .isFalse (by intro hc; cases hc; exact h rfl)
  | .error v, .error w =>
    if h : v = w then .isTrue (by rw [h])
    else .isFalse (by intro hc; cases hc; exact h rfl)
  | .ok _, .error _ => .isFalse (by intro hc; cases hc)
  | .error _, .ok _ => .isFalse (by intro hc; cases hc)

/-- `str.lower` via the character list (kernel-reducible). -/
def strLower (s : String) : String :=
  (s.toList.map Char.toLower).asString

/-- `str.upper` via the character list (kernel-reducible). -/
def strUpper (s : String) : String :=
  (s.toList.map Char.toUpper).asString

/-- `str.strip`: drop leading and trailing whitespace. -/
def charTrim (cs : List Char) : List Char :=
  ((cs.dropWhile Char.isWhitespace).reverse.dropWhile Char.isWhitespace).reverse

/-- `str.strip` on a string. -/
def strTrim (s : String) : String :=
  (charTrim s.toList).asString

/-- The first `n` characters of a string (`s[:n]`). -/
def strTake (s : String) (n : Nat) : String :=
  (s.toList.take n).asString

/-- `sep.join(l)`: join strings with a separator. -/
def joinSep (sep : String) : List String → String
  | [] => ""
  | [x] => x
  | x :: xs => x ++ sep ++ joinSep sep xs

/-- Character class `[a-z0-9]` used by `_standardize_column_names` (the
regex runs after `.str.lower()`). -/
def isLowerAlnum (c : Char) : Bool :=
  (('a' ≤ c && c ≤ 'z') || c.isDigit)

/-- Models the regex `^\s*$` used by `_convert_empty_strings_to_nan`:
true iff the string consists only of whitespace (including the empty
string). -/
def isBlankStr (s : String) : Bool :=
  s.toList.all Char.isWhitespace

/-- `collapseGo inRun cs` replaces every maximal run of characters outside
`[a-z0-9]` by a single `'_'`, mirroring `str.replace(r'[^a-z0-9]+', '_')`.
`inRun` records whether the previous character was part of such a run (its
underscore already emitted). -/
def collapseGo : Bool → List Char → List Char
  | _, [] => []
  | inRun, c :: cs =>
    if isLowerAlnum c then c :: collapseGo false cs
    else if inRun then collapseGo true cs
    else '_' :: collapseGo true cs

/-- Column-name standardization from `CRMDataCleaner._standardize_column_names`:
lowercase, collapse non-alphanumeric runs to `'_'`, strip leading/trailing
underscores. -/
def stdColName (s : String) : String :=
  let collapsed := collapseGo false (strLower s).toList
  let stripped := ((collapsed.dropWhile (· == '_')).reverse.dropWhile (· == '_')).reverse
  stripped.asString

/-- Text normalization from `CRMDataCleaner._normalize_text` applied to a
non-missing string: lowercase, delete the punctuation characters `.,!?;:`
(`str.translate`), and delete spaces (`str.replace(' ', '')`). -/
def normalizeText (s : String) : String :=
  ((strLower s).toList.filter
    (fun c => !(c == '.' || c == ',' || c == '!' || c == '?' || c == ';' || c == ':' || c == ' '))).asString

/-- `CRMDataCleaner._normalize_text` on a cell: `pd.isna` values map to the
empty string, otherwise the string is normalized. -/
def normCell (v : Option String) : String :=
  match v with
  | none => ""
  | some s => normalizeText s

/-- `s.split('@')[0]`: the prefix of `s` before the first `'@'` (the whole
string when there is none). -/
def emailLocal (s : String) : String :=
  (s.toList.takeWhile (· ≠ '@')).asString

/-- Character class `[a-zA-Z0-9._%+-]` (local part of the email regex). -/
def isEmailLocalChar (c : Char) : Bool :=
  c.isAlphanum || c == '.' || c == '_' || c == '%' || c == '+' || c == '-'

/-- Character class `[a-zA-Z0-9.-]` (domain part of the email regex). -/
def isEmailDomChar (c : Char) : Bool :=
  c.isAlphanum || c == '.' || c == '-'

/-- Decides the regex `[a-zA-Z0-9.-]+\.[a-zA-Z]{2,}$` on a character list:
some split `d ++ '.' ++ tld` with `d` non-empty over the domain class and
`tld` at least two ASCII letters reaching the end. -/
def emailDomMatch (cs : List Char) : Bool :=
  (List.range cs.length).any fun i =>
    cs.getD i ' ' == '.' && decide (1 ≤ i) && (cs.take i).all isEmailDomChar &&
      decide (2 ≤ cs.length - (i + 1)) && (cs.drop (i + 1)).all Char.isAlpha

/-- Decides the full-anchored email regex
`^[a-zA-Z0-9._%+-]+@[a-zA-Z0-9.-]+\.[a-zA-Z]{2,}$` shared by
`CRMDataCleaner._validate_and_clean` and `DataValidator._validate_emails`.
Since the local class excludes `'@'`, the regex's `'@'` must be the first
`'@'` of the string. -/
def emailRegexMatch (s : String) : Bool :=
  let cs := s.toList
  let loc := cs.takeWhile (· ≠ '@')
  let rest := cs.drop (loc.length + 1)
  decide (loc.length < cs.length) && decide (1 ≤ loc.length) &&
    loc.all isEmailLocalChar && emailDomMatch rest

/-- Decides the phone-format regex `^\d{3}-\d{4}$` from
`CRMDataCleaner._validate_and_clean`. -/
def phoneFmtMatch (s : String) : Bool :=
  match s.toList with
  | [a, b, c, d, e, f, g, h] =>
    a.isDigit && b.isDigit && c.isDigit && d == '-' &&
      e.isDigit && f.isDigit && g.isDigit && h.isDigit
  | _ => false

/-- A pandas DataFrame as consumed by the pipeline: named columns and rows of
optional string cells (`none` models `NaN`). -/
structure Table where
  cols : List String
  rows : List (List (Option String))
deriving Repr, DecidableEq

/-- `pd.DataFrame()`: the empty table returned on pipeline failure. -/
def emptyTable : Table := ⟨[], []⟩

/-- Index of a named column, `none` when absent (`name in df.columns`). -/
def colIdx (cols : List String) (name : String) : Option Nat :=
  cols.findIdx? (· == name)

/-- `row.get(name, dflt)`: the cell of the named column (possibly missing),
or the default string when the column is absent. -/
def rowGet (cols : List String) (row : List (Option String)) (name dflt : String) :
    Option String :=
  match colIdx cols name with
  | some i => row.getD i none
  | none => some dflt

/-- `CRMDataCleaner._convert_empty_strings_to_nan`:
`df.replace(r'^\s*$', np.nan, regex=True)` cell-wise. -/
def convertEmptyStringsToNan (t : Table) : Table :=
  { t with rows := t.rows.map (List.map fun c =>
      match c with
      | some s => if isBlankStr s then none else some s
      | none => none) }

/-- `CRMDataCleaner._standardize_column_names` (only column names change). -/
def standardizeColumnNames (t : Table) : Table :=
  { t with cols := t.cols.map stdColName }

/-- `df.drop_duplicates()` with the default `keep='first'`: keep the first
occurrence of each row value; `seen` accumulates rows already kept. -/
def dropDupsFirstAux (seen : List (List (Option String))) :
    List (List (Option String)) → List (List (Option String))
  | [] => []
  | r :: rs =>
    if r ∈ seen then dropDupsFirstAux seen rs
    else r :: dropDupsFirstAux (r :: seen) rs

/-- Insert index `i` into the group of key `k`, appending a fresh group at
the end when the key is new: one step of the
`groups = defaultdict(list); groups[key].append(idx)` loop (Python dicts
preserve key insertion order). -/
def addToGroups {K : Type} [DecidableEq K] (gs : List (K × List Nat)) (k : K) (i : Nat) :
    List (K × List Nat) :=
  match gs with
  | [] => [(k, [i])]
  | (k', is') :: rest =>
    if k' = k then (k', is' ++ [i]) :: rest
    else (k', is') :: addToGroups rest k i

/-- Group a list of (index, key) pairs into an association list from key to
index list, keys kept in first-appearance order. -/
def groupPairs {K : Type} [DecidableEq K] (ps : List (Nat × K)) : List (K × List Nat) :=
  ps.foldl (fun gs p => addToGroups gs p.2 p.1) []

/-- The composite fuzzy-matching key of one row, from
`CRMDataCleaner._remove_fuzzy_duplicates`: normalized name, normalized
local part of the email, first 7 characters of `str(phone)`.  The Python
calls `row.get('email', '').split('@')[0]`; when the email cell is `NaN`
(a float) this raises `AttributeError`, modelled as an error. -/
def fuzzyKey (cols : List String) (row : List (Option String)) :
    Except String (String × String × String) :=
  let nameV := rowGet cols row "name" ""
  let phoneV := rowGet cols row "phone" ""
  match rowGet cols row "email" "" with
  | none => .error "AttributeError: nan has no attribute split"
  | some e =>
    .ok (normCell nameV, normalizeText (emailLocal e),
      strTake (match phoneV with | none => "nan" | some s => s) 7)

/-- `records.notna().sum(axis=1)` for one row: the number of non-missing
cells (the completeness score). -/
def notnaCount (row : List (Option String)) : Nat :=
  row.countP (·.isSome)

/-- `CRMDataCleaner._remove_fuzzy_duplicates`: bucket rows by composite key
(key-insertion order), keep from each bucket the first row attaining the
maximal completeness score (`scores.idxmax()` returns the first occurrence
of the maximum), count `len(group) - 1` removals for each bucket of size
greater than one.  The `threshold` parameter is unused, exactly as in the
source. -/
def removeFuzzyDuplicates (t : Table) (threshold : Nat) : Except String (Table × Nat) := do
  let _ := threshold
  let keys ← t.rows.mapM (fuzzyKey t.cols)
  let groups := groupPairs keys.enum
  let scores : Nat → Nat := fun i => notnaCount (t.rows.getD i [])
  let step := groups.foldl (fun (acc : List Nat × Nat) g =>
    if g.2.length > 1 then
      let m := (g.2.map scores).max?.getD 0
      let best := (g.2.filter (fun i => scores i == m)).headD 0
      (acc.1 ++ [best], acc.2 + (g.2.length - 1))
    else
      (acc.1 ++ [g.2.headD 0], acc.2)) ([], 0)
  .ok ({ cols := t.cols, rows := step.1.filterMap (fun i => t.rows[i]?) }, step.2)

/-- `CRMDataCleaner._handle_duplicates`: exact `drop_duplicates` first, then
fuzzy removal when the `name`, `email` and `phone` columns are all present
(with the source's default threshold 88); returns the table with the exact
and fuzzy removal counts. -/
def handleDuplicates (t : Table) : Except String (Table × Nat × Nat) :=
  let originalCount := t.rows.length
  let t1 : Table := { t with rows := dropDupsFirstAux [] t.rows }
  let exactDups := originalCount - t1.rows.length
  if ["name", "email", "phone"].all (fun c => t1.cols.contains c) then do
    let (t2, fz) ← removeFuzzyDuplicates t1 88
    .ok (t2, exactDups, fz)
  else
    .ok (t1, exactDups, 0)

/-- Replace a named column cell-wise when the column exists, else leave the
table unchanged (the `if name in df.columns:` guards of the source). -/
def applyCol (t : Table) (name : String) (f : Option String → Option String) : Table :=
  match colIdx t.cols name with
  | none => t
  | some i => { t with rows := t.rows.map (fun r => r.set i (f (r.getD i none))) }

/-- Python `\w` word characters `[a-zA-Z0-9_]` (for the `\b` boundaries of
`_standardize_address`). -/
def isWordChar (c : Char) : Bool :=
  c.isAlphanum || c == '_'

/-- Split a character list into maximal runs of word / non-word characters. -/
def groupRuns : List Char → List (List Char)
  | [] => []
  | c :: cs =>
    match groupRuns cs with
    | [] => [[c]]
    | run :: rest =>
      match run with
      | [] => [c] :: rest
      | d :: _ =>
        if isWordChar c == isWordChar d then (c :: run) :: rest
        else [c] :: run :: rest

/-- `re.sub` of a word-only pattern with `\b` boundaries, as used by
`_standardize_address`: replace each whole word token equal to `full` by the
abbreviation `ab`. -/
def replaceWord (full ab : String) (s : String) : String :=
  ((groupRuns s.toList).map (fun run =>
    if run.all isWordChar && run.asString == full then ab.toList else run)).flatten.asString

/-- The `standard_address_mapping` dict of `CRMDataCleaner.__init__`, in
insertion order. -/
def standardAddressMapping : List (String × String) :=
  [("street", "St"), ("st", "St"), ("avenue", "Ave"), ("ave", "Ave"),
   ("road", "Rd"), ("rd", "Rd"), ("lane", "Ln"), ("ln", "Ln"),
   ("drive", "Dr"), ("dr", "Dr"), ("boulevard", "Blvd"), ("blvd", "Blvd")]

/-- `CRMDataCleaner._standardize_address` on a non-missing string: apply the
word-boundary substitutions of the mapping in dict order. -/
def standardizeAddress (s : String) : String :=
  standardAddressMapping.foldl (fun a p => replaceWord p.1 p.2 a) s

/-- Python `str.title`: uppercase each alphabetic character that follows a
non-alphabetic one, lowercase the rest; `prevAlpha` tracks the previous
character. -/
def titleGo : Bool → List Char → List Char
  | _, [] => []
  | prevAlpha, c :: cs =>
    if c.isAlpha then (if prevAlpha then c.toLower else c.toUpper) :: titleGo true cs
    else c :: titleGo false cs

/-- `str.title` on a string. -/
def titleCase (s : String) : String :=
  (titleGo false s.toList).asString

/-- `CRMDataCleaner._standardize_data_formats`, cell-wise per column:
* address: `astype(str)` (so `NaN` becomes the string `"nan"`), lowercase,
  `_standardize_address`, `str.title`;
* phone: `astype(str)`, strip non-digits, reformat `XXX-XXXX` when at least
  7 digits remain, else `NaN`;
* email: `.str` operations propagate `NaN`; lowercase, strip, blank to `NaN`;
* company: strip, `str.title`, blank to `NaN`. -/
def standardizeDataFormats (t : Table) : Table :=
  let t1 := applyCol t "address" (fun c =>
    let s := match c with | none => "nan" | some s => s
    some (titleCase (standardizeAddress (strLower s))))
  let t2 := applyCol t1 "phone" (fun c =>
    let s := match c with | none => "nan" | some s => s
    let digits := s.toList.filter Char.isDigit
    if digits.length ≥ 7 then
      some ((digits.take 3).asString ++ "-" ++ ((digits.drop 3).take 4).asString)
    else none)
  let t3 := applyCol t2 "email" (fun c =>
    match c with
    | none => none
    | some s =>
      let u := strTrim (strLower s)
      if isBlankStr u then none else some u)
  applyCol t3 "company" (fun c =>
    match c with
    | none => none
    | some s =>
      let u := titleCase (strTrim s)
      if isBlankStr u then none else some u)

/-- Filter the rows of a table on a predicate over one named column,
returning the surviving table together with the removed-row count
(`(~mask).sum()` then `df = df[mask]`); when the column is absent the stage
is skipped and the count is 0 (the report key is absent in the source,
modelled by the 0 default). -/
def filterColCount (t : Table) (name : String) (pred : Option String → Bool) :
    Table × Nat :=
  match colIdx t.cols name with
  | none => (t, 0)
  | some i =>
    ({ t with rows := t.rows.filter (fun r => pred (r.getD i none)) },
     t.rows.countP (fun r => !pred (r.getD i none)))

/-- The `valid_segments` list of `CRMDataCleaner.__init__`. -/
def validSegments : List String :=
  ["Enterprise", "SMB", "Mid-Market"]

/-- The `required_fields` list of `CRMDataCleaner.__init__` (also the local
list of `DataValidator._check_required_fields`). -/
def requiredFields : List String :=
  ["name", "email"]

/-- The validation part of the cleaner's report
(`CRMDataCleaner._validate_and_clean`): removal counts per rule (0 models
an absent report key when the column is absent) plus the per-field
missing-required counts in check order. -/
structure VParts where
  invalid_emails_removed : Nat
  invalid_phones_removed : Nat
  invalid_segments_removed : Nat
  missing_required_fields : List (String × Nat)
  rows_removed_during_validation : Nat
deriving Repr, DecidableEq

/-- One step of the required-fields loop of `_validate_and_clean`: when the
field's column exists, count and drop the rows missing it and record the
per-field count. -/
def requiredStep (acc : Table × List (String × Nat)) (f : String) :
    Table × List (String × Nat) :=
  match colIdx acc.1.cols f with
  | none => acc
  | some i =>
    let cnt := acc.1.rows.countP (fun r => (r.getD i none).isNone)
    ({ acc.1 with rows := acc.1.rows.filter (fun r => (r.getD i none).isSome) },
     acc.2 ++ [(f, cnt)])

/-- The required-fields loop of `_validate_and_clean`. -/
def requiredFilter (t : Table) : Table × List (String × Nat) :=
  requiredFields.foldl requiredStep (t, [])

/-- `CRMDataCleaner._validate_and_clean`: sequentially filter on the email
regex (`na=False`, so missing fails), the phone format, the segment
enumeration (missing allowed), then the required fields. -/
def validateAndClean (t : Table) : Table × VParts :=
  let originalCount := t.rows.length
  let (t1, emailCnt) := filterColCount t "email" (fun c =>
    match c with | none => false | some s => emailRegexMatch s)
  let (t2, phoneCnt) := filterColCount t1 "phone" (fun c =>
    match c with | none => false | some s => phoneFmtMatch s)
  let (t3, segCnt) := filterColCount t2 "segment" (fun c =>
    match c with | none => true | some s => validSegments.contains s)
  let (t4, missing) := requiredFilter t3
  (t4, { invalid_emails_removed := emailCnt
       , invalid_phones_removed := phoneCnt
       , invalid_segments_removed := segCnt
       , missing_required_fields := missing
       , rows_removed_during_validation := originalCount - t4.rows.length })

/-- Digits of a character list as a natural number. -/
def digitsToNat (cs : List Char) : Nat :=
  cs.foldl (fun n c => n * 10 + (c.toNat - 48)) 0

/-- Models `pd.to_numeric(x, errors='coerce')` on one string: an optional
sign, a non-empty digit run, optionally a dot and a non-empty digit run;
anything else coerces to missing.  A successfully parsed cell keeps its
source string (only parseability matters downstream). -/
def parsesAsNumeric (s : String) : Bool :=
  let core : List Char → Bool := fun cs =>
    let ip := cs.takeWhile Char.isDigit
    let rest := cs.drop ip.length
    match rest with
    | [] => !ip.isEmpty
    | '.' :: fr => !ip.isEmpty && !fr.isEmpty && fr.all Char.isDigit
    | _ => false
  match s.toList with
  | '-' :: cs => core cs
  | cs => core cs

/-- The parsed rational value of a numeric string (for the sort key of
`sort_values('customer_id')`); `none` when `parsesAsNumeric` fails. -/
def numericValue (s : String) : Option Rat :=
  if parsesAsNumeric s then
    let signed := s.toList
    let (neg, cs) := match signed with
      | '-' :: cs => (true, cs)
      | cs => (false, cs)
    let ip := cs.takeWhile Char.isDigit
    let fr := match cs.drop ip.length with
      | '.' :: fr => fr
      | _ => []
    let q : Rat := (digitsToNat ip : Rat) + (digitsToNat fr : Rat) / ((10 : Rat) ^ fr.length)
    some (if neg then -q else q)
  else none

/-- Models `pd.to_datetime(x, errors='coerce')` on one string: the source
data uses ISO `YYYY-MM-DD`; anything else coerces to missing.  A parsed
cell keeps its source string. -/
def parsesAsDate (s : String) : Bool :=
  match s.toList with
  | [y1, y2, y3, y4, d1, m1, m2, d2, a1, a2] =>
    y1.isDigit && y2.isDigit && y3.isDigit && y4.isDigit && d1 == '-' &&
      m1.isDigit && m2.isDigit && d2 == '-' && a1.isDigit && a2.isDigit
  | _ => false

/-- Ordering on `customer_id` sort keys: pandas `sort_values` ascending with
missing keys placed last. -/
def cidLe (a b : Option Rat) : Bool :=
  match a, b with
  | none, none => true
  | none, some _ => false
  | some _, none => true
  | some x, some y => x ≤ y

/-- `CRMDataCleaner._final_cleanup`: fill missing `segment` with
`"Unknown"`, coerce `customer_id` to numeric and `last_purchase_date` to
datetime (both `errors='coerce'`), sort by `customer_id` when present. -/
def finalCleanup (t : Table) : Table :=
  let t1 := applyCol t "segment" (fun c =>
    match c with | none => some "Unknown" | some s => some s)
  let t2 := applyCol t1 "customer_id" (fun c =>
    c.bind (fun s => if parsesAsNumeric s then some s else none))
  let t3 := applyCol t2 "last_purchase_date" (fun c =>
    c.bind (fun s => if parsesAsDate s then some s else none))
  match colIdx t3.cols "customer_id" with
  | none => t3
  | some i =>
    { t3 with rows := t3.rows.insertionSort (fun r1 r2 =>
        cidLe ((r1.getD i none).bind numericValue) ((r2.getD i none).bind numericValue) = true) }

/-- The cleaning report assembled by `CRMDataCleaner.clean_dataset`.  The
Python report is a dict; keys absent for a given run (for example when a
column is missing, or every key except `cleaning_status` and `error` on a
failed run) are modelled by the 0 / empty defaults. -/
structure CReport where
  original_count : Nat := 0
  exact_duplicates_removed : Nat := 0
  fuzzy_duplicates_removed : Nat := 0
  total_duplicates_removed : Nat := 0
  invalid_emails_removed : Nat := 0
  invalid_phones_removed : Nat := 0
  invalid_segments_removed : Nat := 0
  missing_required_fields : List (String × Nat) := []
  rows_removed_during_validation : Nat := 0
  cleaned_count : Nat := 0
  rows_removed : Int := 0
  cleaning_status : String := ""
  error : String := ""
deriving Repr, DecidableEq

/-- The body of `CRMDataCleaner.clean_dataset` (inside the `try`): the stage
sequence convert-blank → standardize column names → duplicates → format
standardization → validation → final cleanup, assembling the report. -/
def clean_datasetE (df : Table) : Except String (Table × CReport) := do
  let originalCount := df.rows.length
  let t1 := convertEmptyStringsToNan df
  let t2 := standardizeColumnNames t1
  let (t3, exactDups, fuzzyDups) ← handleDuplicates t2
  let t4 := standardizeDataFormats t3
  let (t5, v) := validateAndClean t4
  let t6 := finalCleanup t5
  .ok (t6,
    { original_count := originalCount
    , exact_duplicates_removed := exactDups
    , fuzzy_duplicates_removed := fuzzyDups
    , total_duplicates_removed := exactDups + fuzzyDups
    , invalid_emails_removed := v.invalid_emails_removed
    , invalid_phones_removed := v.invalid_phones_removed
    , invalid_segments_removed := v.invalid_segments_removed
    , missing_required_fields := v.missing_required_fields
    , rows_removed_during_validation := v.rows_removed_during_validation
    , cleaned_count := t6.rows.length
    , rows_removed := (originalCount : Int) - (t6.rows.length : Int)
    , cleaning_status := "success"
    , error := "" })

/-- The failure report of `clean_dataset`'s `except` branch: the Python dict
holds only `cleaning_status` and `error`. -/
def failedCReport (e : String) : CReport :=
  { cleaning_status := "failed", error := e }

/-- `CRMDataCleaner.clean_dataset`: run the pipeline; on any raised error
return the empty DataFrame and the failure report. -/
def clean_dataset (df : Table) : Table × CReport :=
  match clean_datasetE df with
  | .ok r => r
  | .error e => (emptyTable, failedCReport e)

/-- The validation report of `DataValidator`: error/warning messages, the
removed-row total, and the initial/final row counts. -/
structure VReport where
  errors : List String := []
  warnings : List String := []
  removed_rows : Int := 0
  initial_count : Nat := 0
  final_count : Nat := 0
deriving Repr, DecidableEq

/-- US postal pattern `^\d{5}(?:-\d{4})?$` on a character list. -/
def usPostalMatch (cs : List Char) : Bool :=
  match cs with
  | [a, b, c, d, e] => a.isDigit && b.isDigit && c.isDigit && d.isDigit && e.isDigit
  | [a, b, c, d, e, h, f, g, i, j] =>
    a.isDigit && b.isDigit && c.isDigit && d.isDigit && e.isDigit && h == '-' &&
      f.isDigit && g.isDigit && i.isDigit && j.isDigit
  | _ => false

/-- Canadian postal pattern `^[A-Za-z]\d[A-Za-z][ -]?\d[A-Za-z]\d$` on a
character list (spaces were already removed, so the optional separator can
only be `'-'`). -/
def caPostalMatch (cs : List Char) : Bool :=
  match cs with
  | [a, b, c, d, e, f] =>
    a.isAlpha && b.isDigit && c.isAlpha && d.isDigit && e.isAlpha && f.isDigit
  | [a, b, c, s, d, e, f] =>
    a.isAlpha && b.isDigit && c.isAlpha && (s == ' ' || s == '-') &&
      d.isDigit && e.isAlpha && f.isDigit
  | _ => false

/-- `DataValidator._validate_postal_codes.validate_postal` on one cell:
missing is invalid; otherwise uppercase, remove spaces, and accept either
the US or the Canadian pattern. -/
def validatePostal (c : Option String) : Bool :=
  match c with
  | none => false
  | some s =>
    let cs := ((strUpper s).toList.filter (· ≠ ' '))
    usPostalMatch cs || caPostalMatch cs

/-- One hard validation stage of `DataValidator`: when the column is
absent, append the given warning; otherwise drop the rows failing `pred`
and, when any row was dropped, append the message built from the count. -/
def validatorStage (t : Table) (rep : VReport) (name : String)
    (absentWarning : Option String) (pred : Option String → Bool)
    (msg : Nat → String) : Table × VReport :=
  match colIdx t.cols name with
  | none =>
    (t, match absentWarning with
        | some w => { rep with warnings := rep.warnings ++ [w] }
        | none => rep)
  | some i =>
    let bad := t.rows.countP (fun r => !pred (r.getD i none))
    if bad > 0 then
      ({ t with rows := t.rows.filter (fun r => pred (r.getD i none)) },
       { rep with errors := rep.errors ++ [msg bad] })
    else (t, rep)

/-- `DataValidator._check_required_fields`: for each of `name` and `email`,
drop rows with a missing value (with a message) or warn when the column is
absent. -/
def validatorRequired (t : Table) (rep : VReport) : Table × VReport :=
  requiredFields.foldl (fun (acc : Table × VReport) f =>
    match colIdx acc.1.cols f with
    | none =>
      (acc.1, { acc.2 with warnings :=
        acc.2.warnings ++ [s!"Required field {f} not found in data"] })
    | some i =>
      let bad := acc.1.rows.countP (fun r => (r.getD i none).isNone)
      if bad > 0 then
        ({ acc.1 with rows := acc.1.rows.filter (fun r => (r.getD i none).isSome) },
         { acc.2 with errors :=
           acc.2.errors ++ [s!"Removed {bad} rows with missing {f} values"] })
      else acc) (t, rep)

/-- `DataValidator.validate` over a table of optional string cells,
parametric in the external `phonenumbers` validity check `phoneValid`
(applied to `str(phone)`; `pd.isna` values are invalid).  The email check
applies `astype(str)` first, so a missing email is matched as the literal
string `"nan"` (which fails the regex).  `_validate_dates` and
`_check_value_ranges` only branch on datetime / numeric dtypes, which an
object-dtype table of optional strings never has, so on this domain they
add nothing.  The report's `final_count` and `removed_rows` are set from
the surviving table exactly as in the source. -/
def validatorValidate (df : Table) (phoneValid : String → Bool) : VReport :=
  let rep0 : VReport :=
    { errors := [], warnings := [], removed_rows := 0
    , initial_count := df.rows.length, final_count := df.rows.length }
  let (t1, rep1) := validatorStage df rep0 "email" (some "No email column found")
    (fun c => emailRegexMatch (match c with | none => "nan" | some s => s))
    (fun n => s!"Removed {n} rows with invalid email addresses")
  let (t2, rep2) := validatorStage t1 rep1 "phone" (some "No phone column found")
    (fun c => match c with | none => false | some s => phoneValid s)
    (fun n => s!"Removed {n} rows with invalid phone numbers")
  let (t3, rep3) := validatorRequired t2 rep2
  let (t4, rep4) := validatorStage t3 rep3 "postal_code" none
    validatePostal
    (fun n => s!"Removed {n} rows with invalid postal codes")
  { rep4 with
    final_count := t4.rows.length
    removed_rows := (rep4.initial_count : Int) - (t4.rows.length : Int) }

/-- Lexicographic comparison of character lists by code point (Python's
string ordering, kernel-reducible). -/
def charListLe : List Char → List Char → Bool
  | [], _ => true
  | _ :: _, [] => false
  | a :: as, b :: bs =>
    if a.toNat < b.toNat then true
    else if b.toNat < a.toNat then false
    else charListLe as bs

/-- `a <= b` for Python strings. -/
def strLe (a b : String) : Bool :=
  charListLe a.toList b.toList

/-- Insert a string into a `strLe`-sorted list, keeping it sorted. -/
def insertSorted (x : String) : List String → List String
  | [] => [x]
  | y :: ys => if strLe x y then x :: y :: ys else y :: insertSorted x ys

/-- Ascending insertion sort of strings (models the sorted order in which
pandas `Series.mode` returns the tied values, and Python `sorted`). -/
def sortStrings : List String → List String
  | [] => []
  | x :: xs => insertSorted x (sortStrings xs)

/-- Generic keep-first deduplication (used for pandas `unique` / `mode`
value sets and for Python `list(set(...))`, whose iteration order the
source leaves unspecified; no theorem below depends on this order). -/
def dedupKeepFirst {α : Type} [DecidableEq α] (seen : List α) : List α → List α
  | [] => []
  | x :: xs =>
    if x ∈ seen then dedupKeepFirst seen xs
    else x :: dedupKeepFirst (x :: seen) xs

/-- A merged field value produced by `merge_duplicate_records`: a string or
a number. -/
inductive MVal where
  | s (v : String)
  | n (v : Rat)
deriving Repr, DecidableEq

/-- One column of a merge group, carrying its pandas dtype: `obj` for
object (string) columns, `num` for numeric columns; cells may be missing. -/
inductive Column where
  | obj (vals : List (Option String))
  | num (vals : List (Option Rat))
deriving Repr, DecidableEq

/-- Number of records of the column (the group's row count). -/
def Column.size : Column → Nat
  | .obj vs => vs.length
  | .num vs => vs.length

/-- `group[col].isnull().all()`. -/
def Column.allNull : Column → Bool
  | .obj vs => vs.all (·.isNone)
  | .num vs => vs.all (·.isNone)

/-- `str(x)` of a rational for `astype(str)` on a numeric column (a
rendering choice for the external pandas conversion; only equality with
the literal `"nan"` matters downstream). -/
def ratToString (q : Rat) : String :=
  if q.den == 1 then toString q.num else toString q.num ++ "/" ++ toString q.den

/-- `group[col].astype(str)`: `NaN` renders as the string `"nan"`. -/
def Column.astypeStr : Column → List String
  | .obj vs => vs.map (fun v => v.getD "nan")
  | .num vs => vs.map (fun v => match v with | none => "nan" | some q => ratToString q)

/-- The `first_valid` strategy of `merge_duplicate_records`:
`group[col].dropna().iloc[0] if not group[col].isnull().all() else None`.
An (unreachable, guarded) empty `iloc[0]` is the `IndexError` case. -/
def mergeFirstValid (c : Column) : Except String (Option MVal) :=
  if c.allNull then .ok none
  else
    match c with
    | .obj vs =>
      match (vs.filterMap id).head? with
      | some v => .ok (some (.s v))
      | none => .error "IndexError"
    | .num vs =>
      match (vs.filterMap id).head? with
      | some v => .ok (some (.n v))
      | none => .error "IndexError"

/-- `Series.mode()` of an object column followed by `iloc[0]` under the
`if not mode.empty` guard: pandas `mode` ignores missing values and
returns the most frequent values **sorted ascending**, so the result is
the least value among those of maximal frequency. -/
def modeFirst (vals : List (Option String)) : Option String :=
  let xs := vals.filterMap id
  let uniq := dedupKeepFirst [] xs
  let maxC := (uniq.map (fun v => xs.count v)).max?.getD 0
  (sortStrings (uniq.filter (fun v => xs.count v == maxC))).head?

/-- One field under a given merge strategy, from `merge_duplicate_records`:
* `first_valid`: first non-missing value;
* `most_frequent`: `mode().iloc[0]` on object columns, first non-missing
  on other dtypes;
* `concatenate`: `astype(str).str.strip()`, values equal to `"nan"`
  replaced by `""`, the distinct non-empty strings joined by `"; "`
  (`None` when none remain);
* `average` / `min` / `max`: over `dropna()`; `None` when empty.  pandas
  `Series.mean()` raises `TypeError` on string data (modelled as an
  error), while `min` / `max` compare strings lexicographically;
* any other strategy name falls back to `first_valid`. -/
def mergeField (strategy : String) (c : Column) : Except String (Option MVal) :=
  if strategy == "first_valid" then
    mergeFirstValid c
  else if strategy == "most_frequent" then
    match c with
    | .obj vs => .ok ((modeFirst vs).map .s)
    | .num _ => mergeFirstValid c
  else if strategy == "concatenate" then
    let stringValues := (c.astypeStr.map strTrim).map (fun s => if s == "nan" then "" else s)
    let uniqueNonEmpty := dedupKeepFirst [] (stringValues.filter (fun s => !(s == "")))
    .ok (if uniqueNonEmpty.isEmpty then none
         else some (.s (joinSep "; " uniqueNonEmpty)))
  else if strategy == "average" then
    match c with
    | .obj vs =>
      let nn := vs.filterMap id
      if nn.isEmpty then .ok none
      else .error "TypeError: could not convert string to numeric"
    | .num vs =>
      let nn := vs.filterMap id
      if nn.isEmpty then .ok none
      else .ok (some (.n (nn.sum / (nn.length : Rat))))
  else if strategy == "min" then
    match c with
    | .obj vs =>
      let nn := vs.filterMap id
      if nn.isEmpty then .ok none else .ok ((nn.min?).map .s)
    | .num vs =>
      let nn := vs.filterMap id
      if nn.isEmpty then .ok none else .ok ((nn.min?).map .n)
  else if strategy == "max" then
    match c with
    | .obj vs =>
      let nn := vs.filterMap id
      if nn.isEmpty then .ok none else .ok ((nn.max?).map .s)
    | .num vs =>
      let nn := vs.filterMap id
      if nn.isEmpty then .ok none else .ok ((nn.max?).map .n)
  else
    mergeFirstValid c

/-- `merge_duplicate_records`: resolve each column of the group in order
under the strategy, producing the merged record as a field/value list. -/
def merge_duplicate_records (gcols : List (String × Column)) (strategy : String) :
    Except String (List (String × Option MVal)) :=
  gcols.mapM (fun p => do
    let v ← mergeField strategy p.2
    pure (p.1, v))

/-- The strategy names recognized by `merge_duplicate_records`. -/
def knownStrategies : List String :=
  ["first_valid", "most_frequent", "concatenate", "average", "min", "max"]

/-- The key cells of one row under `df.groupby(keys)`: `none` when any key
cell is missing (pandas `groupby` drops such rows by default). -/
def rowKeyCells (cols : List String) (keys : List String)
    (row : List (Option String)) : Option (List String) :=
  keys.mapM (fun k =>
    match colIdx cols k with
    | some i => row.getD i none
    | none => none)

/-- `identify_duplicate_groups(df, keys)`: the function's first statement
computes an unused local and the result is `df.groupby(keys)`, modelled as
the association list from key tuple to row indices.  Rows with a missing
key cell are dropped (pandas `groupby` default `dropna=True`); pandas also
sorts groups by key, which is not modelled — the claims below about this
pass are order-insensitive. -/
def identify_duplicate_groups (t : Table) (keys : List String) :
    List (List String × List Nat) :=
  t.rows.enum.foldl (fun gs p =>
    match rowKeyCells t.cols keys p.2 with
    | some k => addToGroups gs k p.1
    | none => gs) []

/-- One discovered similarity pair of `find_fuzzy_duplicates` (a row of the
result DataFrame). -/
structure FuzzyDup where
  value1 : String
  value2 : String
  similarity : Nat
deriving Repr, DecidableEq

/-- `tuple(sorted((a, b)))` for two strings. -/
def sortedPair (a b : String) : String × String :=
  if strLe a b then (a, b) else (b, a)

/-- `find_fuzzy_duplicates(df, column, threshold, n_matches)` over the
column's distinct non-missing values, parametric in the external
`fuzzywuzzy` retrieval `extract` (its `limit=n_matches` truncation is
internal to it).  Each `match_info` models a result tuple: `some (m, sc)`
when it has at least two elements, `none` for a malformed shorter tuple,
which is skipped with a printed warning.  A pair is appended when the
score reaches the threshold, the values differ, and the *sorted* pair is
not among the stored `(value1, value2)` pairs — which are stored unsorted,
exactly as in the source.  The result is sorted by descending similarity. -/
def find_fuzzy_duplicates (uniqueValues : List String)
    (extract : String → List (Option (String × Nat))) (threshold : Nat) :
    List FuzzyDup × List String :=
  let step := uniqueValues.foldl (fun (acc : List FuzzyDup × List String) val =>
    (extract val).foldl (fun acc mi =>
      match mi with
      | some (m, score) =>
        if threshold ≤ score ∧ val ≠ m ∧
            sortedPair val m ∉ acc.1.map (fun d => (d.value1, d.value2)) then
          (acc.1 ++ [⟨val, m, score⟩], acc.2)
        else acc
      | none =>
        (acc.1, acc.2 ++ ["Warning: Unexpected match_info format"])) acc) ([], [])
  (step.1.insertionSort (fun d1 d2 => d2.similarity ≤ d1.similarity), step.2)

/-! ### Lemmas about the grouping fold -/

/-- Appending an index to the groups leaves, up to permutation, the old
member indices plus the new one. -/
theorem addToGroups_flatten_perm {K : Type} [DecidableEq K]
    (gs : List (K × List Nat)) (k : K) (i : Nat) :
    ((addToGroups gs k i).map Prod.snd).flatten.Perm
      (((gs.map Prod.snd).flatten) ++ [i]) := by
  induction gs with
  | nil => simp [addToGroups]
  | cons p rest ih =>
    obtain ⟨k', is'⟩ := p
    by_cases h : k' = k
    · simp only [addToGroups, if_pos h, List.map_cons, List.flatten_cons]
      simp only [List.append_assoc]
      exact (List.perm_append_comm.append_left is')
    · simp only [addToGroups, if_neg h, List.map_cons, List.flatten_cons]
      rw [List.append_assoc]
      exact ih.append_left is'

/-- All member lists stay non-empty through `addToGroups`. -/
theorem addToGroups_nonempty {K : Type} [DecidableEq K]
    (gs : List (K × List Nat)) (k : K) (i : Nat)
    (h : ∀ p ∈ gs, p.2 ≠ []) : ∀ p ∈ addToGroups gs k i, p.2 ≠ [] := by
  induction gs with
  | nil =>
    intro p hp
    simp only [addToGroups, List.mem_singleton] at hp
    subst hp; simp
  | cons q rest ih =>
    obtain ⟨k', is'⟩ := q
    intro p hp
    by_cases hk : k' = k
    · simp only [addToGroups, if_pos hk, List.mem_cons] at hp
      rcases hp with h1 | h2
      · subst h1; simp
      · exact h p (by simp [h2])
    · simp only [addToGroups, if_neg hk, List.mem_cons] at hp
      rcases hp with h1 | h2
      · subst h1; exact h ⟨k', is'⟩ (by simp)
      · exact ih (fun q hq => h q (by simp [hq])) p h2

/-- Folding `addToGroups` over index/key pairs: the member indices are, up
to permutation, the accumulator's members plus the pairs' indices. -/
theorem groupPairs_go_flatten_perm {K : Type} [DecidableEq K]
    (ps : List (Nat × K)) (gs : List (K × List Nat)) :
    ((ps.foldl (fun gs p => addToGroups gs p.2 p.1) gs).map Prod.snd).flatten.Perm
      ((gs.map Prod.snd).flatten ++ ps.map Prod.fst) := by
  induction ps generalizing gs with
  | nil => simp
  | cons p rest ih =>
    simp only [List.foldl_cons, List.map_cons]
    refine (ih (addToGroups gs p.2 p.1)).trans ?_
    refine ((addToGroups_flatten_perm gs p.2 p.1).append_right (rest.map Prod.fst)).trans ?_
    simp [List.append_assoc]

/-- `groupPairs` partitions the pairs' indices: its member indices are a
permutation of the input indices. -/
theorem groupPairs_flatten_perm {K : Type} [DecidableEq K] (ps : List (Nat × K)) :
    (((groupPairs ps).map Prod.snd).flatten).Perm (ps.map Prod.fst) := by
  simpa using groupPairs_go_flatten_perm ps []

/-- Every group produced by the grouping fold is non-empty. -/
theorem groupPairs_nonempty {K : Type} [DecidableEq K] (ps : List (Nat × K)) :
    ∀ p ∈ groupPairs ps, p.2 ≠ [] := by
  suffices h : ∀ gs, (∀ p ∈ gs, p.2 ≠ []) →
      ∀ p ∈ ps.foldl (fun gs p => addToGroups gs p.2 p.1) gs, p.2 ≠ [] by
    exact h [] (by simp)
  induction ps with
  | nil => intro gs h; simpa using h
  | cons p rest ih =>
    intro gs h
    exact ih (addToGroups gs p.2 p.1) (addToGroups_nonempty gs p.2 p.1 h)

/-- Members of `addToGroups` satisfy any property satisfied by the old
members and by the inserted index/key pair. -/
theorem addToGroups_mem {K : Type} [DecidableEq K]
    (gs : List (K × List Nat)) (k : K) (i : Nat) (Q : Nat → K → Prop)
    (h : ∀ q ∈ gs, ∀ j ∈ q.2, Q j q.1) (hki : Q i k) :
    ∀ q ∈ addToGroups gs k i, ∀ j ∈ q.2, Q j q.1 := by
  induction gs with
  | nil =>
    intro q hq j hj
    simp only [addToGroups, List.mem_singleton] at hq
    subst hq
    simp only [List.mem_singleton] at hj
    subst hj; exact hki
  | cons q0 rest ih =>
    obtain ⟨k', is'⟩ := q0
    intro q hq j hj
    by_cases hk : k' = k
    · simp only [addToGroups, if_pos hk, List.mem_cons] at hq
      rcases hq with h1 | h2
      · subst h1
        simp only [List.mem_append, List.mem_singleton] at hj
        rcases hj with hj1 | hj2
        · exact h ⟨k', is'⟩ (by simp) j hj1
        · subst hj2; simpa [hk] using hki
      · exact h q (by simp [h2]) j hj
    · simp only [addToGroups, if_neg hk, List.mem_cons] at hq
      rcases hq with h1 | h2
      · subst h1; exact h ⟨k', is'⟩ (by simp) j hj
      · exact ih (fun q hq => h q (by simp [hq])) q h2 j hj

/-- Every member index of a group of `groupPairs` appears in the input
paired with that group's key. -/
theorem groupPairs_mem {K : Type} [DecidableEq K] (ps : List (Nat × K)) :
    ∀ q ∈ groupPairs ps, ∀ j ∈ q.2, (j, q.1) ∈ ps := by
  suffices h : ∀ (sfx : List (Nat × K)) gs, (∀ q ∈ gs, ∀ j ∈ q.2, (j, q.1) ∈ ps) →
      (∀ p ∈ sfx, p ∈ ps) →
      ∀ q ∈ sfx.foldl (fun gs p => addToGroups gs p.2 p.1) gs, ∀ j ∈ q.2, (j, q.1) ∈ ps by
    exact h ps [] (by simp) (fun p hp => hp)
  intro sfx
  induction sfx with
  | nil => intro gs h _; simpa using h
  | cons p rest ih =>
    intro gs h hsub
    simp only [List.foldl_cons]
    refine ih (addToGroups gs p.2 p.1) ?_ (fun q hq => hsub q (by simp [hq]))
    exact addToGroups_mem gs p.2 p.1 (fun j k => (j, k) ∈ ps) h (by simpa using hsub p (by simp))

/-- The effect of `addToGroups` on the key list: unchanged when the key is
already present, appended otherwise. -/
theorem addToGroups_keys {K : Type} [DecidableEq K]
    (gs : List (K × List Nat)) (k : K) (i : Nat) :
    (addToGroups gs k i).map Prod.fst =
      if k ∈ gs.map Prod.fst then gs.map Prod.fst else gs.map Prod.fst ++ [k] := by
  induction gs with
  | nil => simp [addToGroups]
  | cons q rest ih =>
    obtain ⟨k', is'⟩ := q
    by_cases hk : k' = k
    · simp [addToGroups, hk]
    · simp only [addToGroups, if_neg hk, List.map_cons, ih]
      by_cases hm : k ∈ rest.map Prod.fst
      · simp [hm, Ne.symm hk]
      · simp [hm, Ne.symm hk]

/-- `addToGroups` keeps every group strictly increasing when the inserted
index exceeds all current members. -/
theorem addToGroups_sorted {K : Type} [DecidableEq K]
    (gs : List (K × List Nat)) (k : K) (i : Nat)
    (hs : ∀ q ∈ gs, q.2.Sorted (· < ·)) (hub : ∀ q ∈ gs, ∀ j ∈ q.2, j < i) :
    ∀ q ∈ addToGroups gs k i, q.2.Sorted (· < ·) := by
  induction gs with
  | nil =>
    intro q hq
    simp only [addToGroups, List.mem_singleton] at hq
    subst hq; simp [List.Sorted]
  | cons q0 rest ih =>
    obtain ⟨k', is'⟩ := q0
    intro q hq
    by_cases hk : k' = k
    · simp only [addToGroups, if_pos hk, List.mem_cons] at hq
      rcases hq with h1 | h2
      · subst h1
        have h0 := hs ⟨k', is'⟩ (by simp)
        simp only [List.Sorted] at h0 ⊢
        rw [List.pairwise_append]
        refine ⟨h0, by simp, ?_⟩
        intro a ha b hb
        simp only [List.mem_singleton] at hb
        subst hb
        exact hub ⟨k', is'⟩ (by simp) a ha
      · exact hs q (by simp [h2])
    · simp only [addToGroups, if_neg hk, List.mem_cons] at hq
      rcases hq with h1 | h2
      · subst h1; exact hs ⟨k', is'⟩ (by simp)
      · exact ih (fun q hq => hs q (by simp [hq]))
          (fun q hq => hub q (by simp [hq])) q h2

/-- Groups built from pairs with strictly increasing indices have strictly
increasing member lists. -/
theorem groupPairs_sorted {K : Type} [DecidableEq K] (ps : List (Nat × K))
    (hps : (ps.map Prod.fst).Pairwise (· < ·)) :
    ∀ q ∈ groupPairs ps, q.2.Sorted (· < ·) := by
  suffices h : ∀ (sfx : List (Nat × K)) gs,
      (sfx.map Prod.fst).Pairwise (· < ·) →
      (∀ q ∈ gs, q.2.Sorted (· < ·)) →
      (∀ q ∈ gs, ∀ j ∈ q.2, ∀ p ∈ sfx, j < p.1) →
      ∀ q ∈ sfx.foldl (fun gs p => addToGroups gs p.2 p.1) gs, q.2.Sorted (· < ·) by
    exact h ps [] hps (by simp) (by simp)
  intro sfx
  induction sfx with
  | nil => intro gs _ hs _; simpa using hs
  | cons p rest ih =>
    intro gs hpw hs hub
    simp only [List.map_cons, List.pairwise_cons] at hpw
    simp only [List.foldl_cons]
    refine ih (addToGroups gs p.2 p.1) hpw.2 ?_ ?_
    · exact addToGroups_sorted gs p.2 p.1 hs
        (fun q hq j hj => hub q hq j hj p (by simp))
    · intro q hq j hj p' hp'
      refine addToGroups_mem gs p.2 p.1
        (fun j _ => ∀ p' ∈ rest, j < p'.1)
        (fun q hq j hj p' hp' => hub q hq j hj p' (by simp [hp']))
        ?_ q hq j hj p' hp'
      intro p'' hp''
      exact hpw.1 p''.1 (List.mem_map_of_mem Prod.fst hp'')

/-! ### Characterizing `removeFuzzyDuplicates` -/

/-- The record kept from one bucket, exactly as the source selects it:
`scores.idxmax()` (the first row label attaining the maximal completeness
score) for buckets of size greater than one, the sole member otherwise. -/
def codeBest (t : Table) (g : List Nat) : Nat :=
  let scores : Nat → Nat := fun i => notnaCount (t.rows.getD i [])
  if g.length > 1 then
    let m := (g.map scores).max?.getD 0
    (g.filter (fun i => scores i == m)).headD 0
  else g.headD 0

/-- `len(group_indices) - 1` for buckets of size greater than one, 0
otherwise: the per-bucket removal count. -/
def groupExcess (g : List Nat) : Nat :=
  if g.length > 1 then g.length - 1 else 0

/-- Unrolling the keep/removed accumulation loop. -/
theorem foldl_keep_removed {α : Type} (f g : α → Nat) (l : List α)
    (ks : List Nat) (r : Nat) :
    l.foldl (fun acc x => (acc.1 ++ [f x], acc.2 + g x)) (ks, r) =
      (ks ++ l.map f, r + (l.map g).sum) := by
  induction l generalizing ks r with
  | nil => simp
  | cons x xs ih => simp [ih, Nat.add_assoc]

/-- `removeFuzzyDuplicates` in closed form, given the key computation
succeeds: keep `codeBest` per bucket in key-insertion order, count
`groupExcess` per bucket. -/
theorem removeFuzzyDuplicates_eq (t : Table) (th : Nat)
    (keys : List (String × String × String))
    (hk : t.rows.mapM (fuzzyKey t.cols) = .ok keys) :
    removeFuzzyDuplicates t th = .ok
      ({ cols := t.cols,
         rows := ((groupPairs keys.enum).map (fun q => codeBest t q.2)).filterMap
           (fun i => t.rows[i]?) },
       ((groupPairs keys.enum).map (fun q => groupExcess q.2)).sum) := by
  have hfold :
      (fun (acc : List Nat × Nat) (g : (String × String × String) × List Nat) =>
        if g.2.length > 1 then
          let m := (g.2.map (fun i => notnaCount (t.rows.getD i []))).max?.getD 0
          let best := (g.2.filter (fun i => notnaCount (t.rows.getD i []) == m)).headD 0
          (acc.1 ++ [best], acc.2 + (g.2.length - 1))
        else
          (acc.1 ++ [g.2.headD 0], acc.2)) =
      (fun acc g => (acc.1 ++ [codeBest t g.2], acc.2 + groupExcess g.2)) := by
    funext acc g
    by_cases h : g.2.length > 1 <;> simp [codeBest, groupExcess, h]
  simp only [removeFuzzyDuplicates, hk]
  show Except.ok _ = _
  rw [hfold, foldl_keep_removed]
  simp

/-- The maximum of a non-empty `Nat` list is one of its members. -/
theorem foldl_max_mem (x : Nat) (xs : List Nat) : xs.foldl max x ∈ x :: xs := by
  induction xs generalizing x with
  | nil => simp
  | cons y ys ih =>
    have h := ih (max x y)
    simp only [List.foldl_cons]
    rcases List.mem_cons.mp h with h1 | h1
    · rw [h1]
      rcases max_choice x y with hm | hm <;> simp [hm]
    · exact List.mem_cons_of_mem _ (List.mem_cons_of_mem _ h1)

/-- `max?.getD` of a non-empty `Nat` list is a member. -/
theorem max?_getD_mem (l : List Nat) (h : l ≠ []) : l.max?.getD 0 ∈ l := by
  match l with
  | [] => exact absurd rfl h
  | x :: xs =>
    show ((x :: xs).max?).getD 0 ∈ x :: xs
    rw [show (x :: xs).max? = some (xs.foldl max x) from rfl]
    exact foldl_max_mem x xs

/-- `headD` of a non-empty list is a member. -/
theorem headD_mem {α : Type} (l : List α) (d : α) (h : l ≠ []) : l.headD d ∈ l := by
  cases l with
  | nil => exact absurd rfl h
  | cons x xs => simp

/-- The kept index of a non-empty bucket is one of its members. -/
theorem codeBest_mem (t : Table) (g : List Nat) (h : g ≠ []) : codeBest t g ∈ g := by
  unfold codeBest
  by_cases h1 : g.length > 1
  · simp only [if_pos h1]
    have hmax : (g.map (fun i => notnaCount (t.rows.getD i []))).max?.getD 0
        ∈ g.map (fun i => notnaCount (t.rows.getD i [])) :=
      max?_getD_mem _ (by simpa using h)
    obtain ⟨i, hi, hsi⟩ := List.mem_map.mp hmax
    have hfil : i ∈ g.filter (fun i => notnaCount (t.rows.getD i []) ==
        (g.map (fun i => notnaCount (t.rows.getD i []))).max?.getD 0) := by
      simp only [List.mem_filter, beq_iff_eq]
      exact ⟨hi, by simpa using hsi⟩
    exact List.mem_of_mem_filter (headD_mem _ 0 (List.ne_nil_of_mem hfil))
  · simp only [if_neg h1]
    exact headD_mem g 0 h

/-- `filterMap` over a list whose images are all `some` keeps the length. -/
theorem length_filterMap_of_isSome {α β : Type} (f : α → Option β) (l : List α)
    (h : ∀ x ∈ l, (f x).isSome) : (l.filterMap f).length = l.length := by
  induction l with
  | nil => simp
  | cons x xs ih =>
    rcases Option.isSome_iff_exists.mp (h x (by simp)) with ⟨b, hb⟩
    simp [List.filterMap_cons, hb, ih (fun y hy => h y (by simp [hy]))]

/-- Reduction of `Except` bind on a success. -/
theorem except_bind_ok {α β : Type} (x : α) (g : α → Except String β) :
    (Except.ok x : Except String α) >>= g = g x := rfl

/-- Reduction of `Except` bind on an error. -/
theorem except_bind_error {α β : Type} (e : String) (g : α → Except String β) :
    (Except.error e : Except String α) >>= g = Except.error e := rfl

/-- `List.mapM` over `Except` succeeds with `ys` iff it succeeds pointwise. -/
theorem except_mapM_ok_iff {α β : Type} (f : α → Except String β) (l : List α)
    (ys : List β) :
    l.mapM f = .ok ys ↔ List.Forall₂ (fun x y => f x = .ok y) l ys := by
  induction l generalizing ys with
  | nil =>
    constructor
    · intro h
      rw [List.mapM_nil] at h
      cases ys with
      | nil => exact List.Forall₂.nil
      | cons y ys => simp [pure, Except.pure] at h
    · intro h
      cases h
      rfl
  | cons x xs ih =>
    rw [List.mapM_cons]
    constructor
    · intro h
      cases hfx : f x with
      | error e =>
        rw [hfx, except_bind_error] at h
        cases h
      | ok y =>
        rw [hfx, except_bind_ok] at h
        cases hxs : xs.mapM f with
        | error e =>
          rw [hxs, except_bind_error] at h
          cases h
        | ok zs =>
          rw [hxs, except_bind_ok] at h
          have hys : ys = y :: zs := by
            cases h
            rfl
          subst hys
          exact List.Forall₂.cons hfx ((ih zs).mp hxs)
    · intro h
      cases h with
      | cons hxy hrest =>
        rename_i y zs
        rw [hxy, except_bind_ok, (ih zs).mpr hrest]
        rfl

/-- Lengths agree on a successful `mapM`. -/
theorem except_mapM_ok_length {α β : Type} (f : α → Except String β) (l : List α)
    (ys : List β) (h : l.mapM f = .ok ys) : ys.length = l.length :=
  (((except_mapM_ok_iff f l ys).mp h).length_eq).symm

/-- Each left element of a `Forall₂` has a related right witness. -/
theorem forall2_mem_left {α β : Type} {R : α → β → Prop} {l : List α} {ys : List β}
    (h : List.Forall₂ R l ys) : ∀ x ∈ l, ∃ y, R x y := by
  induction h with
  | nil => intro x hx; cases hx
  | cons hxy _ ih =>
    intro x hx
    rcases List.mem_cons.mp hx with h1 | h1
    · subst h1; exact ⟨_, hxy⟩
    · exact ih x h1

/-- A successful `mapM` succeeds element-wise. -/
theorem except_mapM_ok_mem {α β : Type} (f : α → Except String β) (l : List α)
    (ys : List β) (h : l.mapM f = .ok ys) : ∀ x ∈ l, ∃ y, f x = .ok y :=
  forall2_mem_left ((except_mapM_ok_iff f l ys).mp h)

/-- Element-wise success yields a successful `mapM`. -/
theorem except_mapM_ok_of_mem {α β : Type} (f : α → Except String β) (l : List α)
    (h : ∀ x ∈ l, ∃ y, f x = .ok y) : ∃ ys, l.mapM f = .ok ys := by
  induction l with
  | nil => exact ⟨[], rfl⟩
  | cons x xs ih =>
    obtain ⟨y, hy⟩ := h x (by simp)
    obtain ⟨ys, hys⟩ := ih (fun z hz => h z (by simp [hz]))
    exact ⟨y :: ys, by rw [List.mapM_cons, hy, except_bind_ok, hys, except_bind_ok]; rfl⟩

/-- One kept record plus the removal excess per bucket accounts for the
bucket's full size. -/
theorem length_add_excess {K : Type} (gs : List (K × List Nat))
    (h : ∀ q ∈ gs, q.2 ≠ []) :
    gs.length + (gs.map (fun q => groupExcess q.2)).sum =
      (gs.map (fun q => q.2.length)).sum := by
  induction gs with
  | nil => simp
  | cons q rest ih =>
    have hq : q.2 ≠ [] := h q (by simp)
    have hlen : 1 + groupExcess q.2 = q.2.length := by
      unfold groupExcess
      by_cases h1 : q.2.length > 1
      · simp only [if_pos h1]; omega
      · simp only [if_neg h1]
        have h0 : q.2.length ≠ 0 := by simpa [List.length_eq_zero] using hq
        omega
    have hrest := ih (fun q hq2 => h q (by simp [hq2]))
    simp only [List.length_cons, List.map_cons, List.sum_cons]
    omega

/-- Every member index of the fuzzy grouping of `keys.enum` is below the
number of keys, and the member indices altogether count every position
exactly once. -/
theorem groupPairs_enum_perm {K : Type} [DecidableEq K] (keys : List K) :
    (((groupPairs keys.enum).map Prod.snd).flatten).Perm (List.range keys.length) := by
  have h := groupPairs_flatten_perm keys.enum
  rwa [List.enum_map_fst] at h

/-- Count conservation for the fuzzy stage: surviving rows plus the removal
count equal the input rows. -/
theorem removeFuzzyDuplicates_length (t : Table) (th : Nat) (t' : Table) (rem : Nat)
    (h : removeFuzzyDuplicates t th = .ok (t', rem)) :
    t'.rows.length + rem = t.rows.length := by
  cases hk : t.rows.mapM (fuzzyKey t.cols) with
  | error e =>
    rw [show removeFuzzyDuplicates t th =
        Except.error e by simp only [removeFuzzyDuplicates, hk]; rfl] at h
    cases h
  | ok keys =>
    rw [removeFuzzyDuplicates_eq t th keys hk] at h
    injection h with hval
    injection hval with ht' hrem
    subst ht'
    subst hrem
    have hkeylen : keys.length = t.rows.length :=
      except_mapM_ok_length _ _ _ hk
    have hperm := groupPairs_enum_perm keys
    have hne := groupPairs_nonempty keys.enum
    have hmemlt : ∀ j ∈ ((groupPairs keys.enum).map Prod.snd).flatten,
        j < t.rows.length := by
      intro j hj
      have := hperm.mem_iff.mp hj
      rw [List.mem_range] at this
      omega
    have hbest : ∀ q ∈ groupPairs keys.enum, codeBest t q.2 < t.rows.length := by
      intro q hq
      refine hmemlt _ ?_
      rw [List.mem_flatten]
      exact ⟨q.2, List.mem_map_of_mem Prod.snd hq, codeBest_mem t q.2 (hne q hq)⟩
    have hlen1 : (((groupPairs keys.enum).map (fun q => codeBest t q.2)).filterMap
        (fun i => t.rows[i]?)).length = (groupPairs keys.enum).length := by
      rw [length_filterMap_of_isSome]
      · simp
      · intro i hi
        obtain ⟨q, hq, hiq⟩ := List.mem_map.mp hi
        rw [← hiq, List.getElem?_eq_getElem (hbest q hq)]
        rfl
    have hsum : (((groupPairs keys.enum).map Prod.snd).map List.length).sum =
        t.rows.length := by
      rw [← List.length_flatten, hperm.length_eq, List.length_range, hkeylen]
    have hx := length_add_excess (groupPairs keys.enum) hne
    have hms : ((groupPairs keys.enum).map (fun q => q.2.length)).sum =
        (((groupPairs keys.enum).map Prod.snd).map List.length).sum := by
      rw [List.map_map]
      rfl
    show (((groupPairs keys.enum).map (fun q => codeBest t q.2)).filterMap
        (fun i => t.rows[i]?)).length +
      ((groupPairs keys.enum).map (fun q => groupExcess q.2)).sum = t.rows.length
    omega

/-! ### Length bookkeeping for the other stages -/

/-- `drop_duplicates` output is a sublist of the input. -/
theorem dropDupsFirstAux_sublist (seen : List (List (Option String)))
    (l : List (List (Option String))) : (dropDupsFirstAux seen l).Sublist l := by
  induction l generalizing seen with
  | nil => simp [dropDupsFirstAux]
  | cons r rs ih =>
    by_cases h : r ∈ seen
    · simp only [dropDupsFirstAux, if_pos h]
      exact (ih seen).cons r
    · simp only [dropDupsFirstAux, if_neg h]
      exact (ih (r :: seen)).cons₂ r

/-- `drop_duplicates` output has no duplicates and avoids the seen set. -/
theorem dropDupsFirstAux_spec (seen : List (List (Option String)))
    (l : List (List (Option String))) :
    (dropDupsFirstAux seen l).Nodup ∧ ∀ r ∈ dropDupsFirstAux seen l, r ∉ seen := by
  induction l generalizing seen with
  | nil => simp [dropDupsFirstAux]
  | cons r rs ih =>
    by_cases h : r ∈ seen
    · simpa only [dropDupsFirstAux, if_pos h] using ih seen
    · simp only [dropDupsFirstAux, if_neg h]
      obtain ⟨hnd, hmem⟩ := ih (r :: seen)
      refine ⟨List.nodup_cons.mpr ⟨fun hc => (hmem r hc) (by simp), hnd⟩, ?_⟩
      intro x hx
      rcases List.mem_cons.mp hx with h1 | h1
      · subst h1; exact h
      · intro hxs
        exact (hmem x h1) (by simp [hxs])

/-- A duplicate-free list avoiding the seen set passes `drop_duplicates`
unchanged. -/
theorem dropDupsFirstAux_eq_self (seen : List (List (Option String)))
    (l : List (List (Option String))) (hn : l.Nodup)
    (hd : ∀ r ∈ l, r ∉ seen) : dropDupsFirstAux seen l = l := by
  induction l generalizing seen with
  | nil => rfl
  | cons r rs ih =>
    have h : r ∉ seen := hd r (by simp)
    simp only [dropDupsFirstAux, if_neg h]
    rw [ih (r :: seen) (List.nodup_cons.mp hn).2]
    intro x hx
    simp only [List.mem_cons, not_or]
    exact ⟨fun he => (List.nodup_cons.mp hn).1 (he ▸ hx), hd x (by simp [hx])⟩

/-- Split of a list's length into surviving and failing counts for one
filtering rule. -/
theorem length_filter_add_countP_not {α : Type} (p : α → Bool) (l : List α) :
    (l.filter p).length + l.countP (fun a => !p a) = l.length := by
  induction l with
  | nil => simp
  | cons x xs ih =>
    by_cases h : p x <;>
      simp only [List.filter_cons, List.countP_cons, h] <;> simp [h] <;> omega

/-- Count conservation for one column filter of `_validate_and_clean`. -/
theorem filterColCount_length (t : Table) (name : String)
    (pred : Option String → Bool) :
    (filterColCount t name pred).1.rows.length + (filterColCount t name pred).2 =
      t.rows.length := by
  unfold filterColCount
  cases h : colIdx t.cols name with
  | none => simp
  | some i =>
    simp only
    exact length_filter_add_countP_not (fun r => pred (r.getD i none)) t.rows

/-- A column filter does not change the column list. -/
theorem filterColCount_cols (t : Table) (name : String)
    (pred : Option String → Bool) :
    (filterColCount t name pred).1.cols = t.cols := by
  unfold filterColCount
  cases h : colIdx t.cols name <;> simp

/-- Count conservation for the required-fields loop, relative to an
arbitrary field list and accumulator. -/
theorem requiredFoldGo_length (fields : List String) (t : Table)
    (acc : List (String × Nat)) :
    (fields.foldl requiredStep (t, acc)).1.rows.length +
      ((fields.foldl requiredStep (t, acc)).2.map Prod.snd).sum =
      t.rows.length + (acc.map Prod.snd).sum := by
  induction fields generalizing t acc with
  | nil => simp
  | cons f rest ih =>
    simp only [List.foldl_cons]
    rw [show requiredStep (t, acc) f = (match colIdx t.cols f with
      | none => (t, acc)
      | some i =>
        ({ t with rows := t.rows.filter (fun r => (r.getD i none).isSome) },
         acc ++ [(f, t.rows.countP (fun r => (r.getD i none).isNone))])) from rfl]
    cases h : colIdx t.cols f with
    | none => exact ih t acc
    | some i =>
      simp only
      rw [ih _ _]
      have hsplit := length_filter_add_countP_not
        (fun r => (r.getD i none).isSome) t.rows
      have hcnt : t.rows.countP (fun r => (r.getD i none).isNone) =
          t.rows.countP (fun r => !(r.getD i none).isSome) := by
        refine List.countP_congr ?_
        intro r _
        cases hv : r.getD i none <;> simp [hv]
      simp only [List.map_append, List.sum_append, List.map_cons, List.sum_cons]
      simp only [List.map_nil, List.sum_nil]
      omega

/-- Count conservation for `_validate_and_clean`: survivors plus every
per-rule removal count equal the input rows. -/
theorem validateAndClean_length (t : Table) :
    (validateAndClean t).1.rows.length +
      ((validateAndClean t).2.invalid_emails_removed +
       (validateAndClean t).2.invalid_phones_removed +
       (validateAndClean t).2.invalid_segments_removed +
       ((validateAndClean t).2.missing_required_fields.map Prod.snd).sum) =
      t.rows.length := by
  unfold validateAndClean
  simp only
  have h1 := filterColCount_length t "email" (fun c =>
    match c with | none => false | some s => emailRegexMatch s)
  have h2 := filterColCount_length (filterColCount t "email" (fun c =>
    match c with | none => false | some s => emailRegexMatch s)).1 "phone" (fun c =>
    match c with | none => false | some s => phoneFmtMatch s)
  have h3 := filterColCount_length (filterColCount (filterColCount t "email" (fun c =>
    match c with | none => false | some s => emailRegexMatch s)).1 "phone" (fun c =>
    match c with | none => false | some s => phoneFmtMatch s)).1 "segment" (fun c =>
    match c with | none => true | some s => validSegments.contains s)
  have h4 := requiredFoldGo_length requiredFields (filterColCount (filterColCount
    (filterColCount t "email" (fun c =>
      match c with | none => false | some s => emailRegexMatch s)).1 "phone" (fun c =>
      match c with | none => false | some s => phoneFmtMatch s)).1 "segment" (fun c =>
      match c with | none => true | some s => validSegments.contains s)).1 []
  simp only [List.map_nil, List.sum_nil, Nat.add_zero] at h4
  unfold requiredFilter
  omega

/-- A cell-wise column update keeps the row count. -/
theorem applyCol_rows_length (t : Table) (name : String)
    (f : Option String → Option String) :
    (applyCol t name f).rows.length = t.rows.length := by
  unfold applyCol
  cases colIdx t.cols name <;> simp

/-- A cell-wise column update keeps the column list. -/
theorem applyCol_cols (t : Table) (name : String)
    (f : Option String → Option String) :
    (applyCol t name f).cols = t.cols := by
  unfold applyCol
  cases colIdx t.cols name <;> simp

/-- Format standardization keeps the row count. -/
theorem standardizeDataFormats_length (t : Table) :
    (standardizeDataFormats t).rows.length = t.rows.length := by
  unfold standardizeDataFormats
  simp only [applyCol_rows_length]

/-- Format standardization keeps the column list. -/
theorem standardizeDataFormats_cols (t : Table) :
    (standardizeDataFormats t).cols = t.cols := by
  unfold standardizeDataFormats
  simp only [applyCol_cols]

/-- The final cleanup keeps the row count (fill/coerce are cell-wise and
the sort permutes). -/
theorem finalCleanup_length (t : Table) :
    (finalCleanup t).rows.length = t.rows.length := by
  simp only [finalCleanup]
  split
  · simp only [applyCol_rows_length]
  · simp only [List.length_insertionSort, applyCol_rows_length]

/-- Count conservation for `_handle_duplicates`: survivors plus the exact
and fuzzy removal counts equal the input rows. -/
theorem handleDuplicates_length (t t' : Table) (ex fz : Nat)
    (h : handleDuplicates t = .ok (t', ex, fz)) :
    t'.rows.length + ex + fz = t.rows.length := by
  simp only [handleDuplicates] at h
  have hle : (dropDupsFirstAux [] t.rows).length ≤ t.rows.length :=
    (dropDupsFirstAux_sublist [] t.rows).length_le
  split at h
  · cases hf : removeFuzzyDuplicates { t with rows := dropDupsFirstAux [] t.rows } 88 with
    | error e =>
      rw [hf, except_bind_error] at h
      cases h
    | ok p =>
      obtain ⟨t2, fz2⟩ := p
      rw [hf, except_bind_ok] at h
      injection h with hval
      injection hval with h1 hrest
      injection hrest with h2 h3
      subst h1
      subst h2
      subst h3
      have hlen := removeFuzzyDuplicates_length _ 88 t2 fz2 hf
      simp only at hlen
      simp at hlen ⊢
      omega
  · injection h with hval
    injection hval with h1 hrest
    injection hrest with h2 h3
    subst h1
    subst h2
    subst h3
    simp only
    omega

/-! ### Claim theorems -/

/-- The validator's report relates its counts by construction. -/
theorem validatorValidate_removed_eq (df : Table) (pv : String → Bool) :
    (validatorValidate df pv).removed_rows =
      ((validatorValidate df pv).initial_count : Int) -
        ((validatorValidate df pv).final_count : Int) := rfl

/-- Claim C1: after a successful full-pipeline run, the per-stage removal
counts in the report sum to the difference between the initial and final
row counts (`final_count + sum(removed_per_stage) == initial_count`, the
stages being exact duplicates, fuzzy duplicates, invalid emails, invalid
phones, invalid segments and the per-field missing-required counts), and
the validator's report has `removed_rows == initial_count - final_count`. -/
theorem clean_dataset_count_conservation (df df' vt : Table) (r : CReport)
    (pv : String → Bool) (h : clean_datasetE df = .ok (df', r)) :
    r.cleaned_count +
      (r.exact_duplicates_removed + r.fuzzy_duplicates_removed +
       r.invalid_emails_removed + r.invalid_phones_removed +
       r.invalid_segments_removed +
       (r.missing_required_fields.map Prod.snd).sum) = r.original_count ∧
    (validatorValidate vt pv).removed_rows =
      ((validatorValidate vt pv).initial_count : Int) -
        ((validatorValidate vt pv).final_count : Int) := by
  refine ⟨?_, validatorValidate_removed_eq vt pv⟩
  simp only [clean_datasetE] at h
  cases hd : handleDuplicates (standardizeColumnNames (convertEmptyStringsToNan df)) with
  | error e =>
    rw [hd, except_bind_error] at h
    cases h
  | ok p =>
    obtain ⟨t3, ex, fz⟩ := p
    rw [hd, except_bind_ok] at h
    injection h with hval
    rw [Prod.mk.injEq] at hval
    obtain ⟨h1, h2⟩ := hval
    subst h2
    have e1 : (standardizeColumnNames (convertEmptyStringsToNan df)).rows.length =
        df.rows.length := by
      simp [standardizeColumnNames, convertEmptyStringsToNan]
    have e3 := handleDuplicates_length _ _ _ _ hd
    have e4 := standardizeDataFormats_length t3
    have e5 := validateAndClean_length (standardizeDataFormats t3)
    have e6 := finalCleanup_length (validateAndClean (standardizeDataFormats t3)).1
    simp only at e3 ⊢
    omega

/-- Input table of the C1 witness run. -/
def c1Input : Table := ⟨["name", "email"], [[some "ann", some "a@ex.com"]]⟩

/-- Output report of the C1 witness run. -/
def c1Report : CReport :=
  { original_count := 1, exact_duplicates_removed := 0,
    fuzzy_duplicates_removed := 0, total_duplicates_removed := 0,
    invalid_emails_removed := 0, invalid_phones_removed := 0,
    invalid_segments_removed := 0,
    missing_required_fields := [("name", 0), ("email", 0)],
    rows_removed_during_validation := 0, cleaned_count := 1,
    rows_removed := 0, cleaning_status := "success", error := "" }

/-- Witness for C1: a one-row table that passes every stage. -/
theorem clean_dataset_count_conservation_witness :
    c1Report.cleaned_count +
      (c1Report.exact_duplicates_removed + c1Report.fuzzy_duplicates_removed +
       c1Report.invalid_emails_removed + c1Report.invalid_phones_removed +
       c1Report.invalid_segments_removed +
       (c1Report.missing_required_fields.map Prod.snd).sum) = c1Report.original_count ∧
    (validatorValidate ⟨["email"], [[some "a@ex.com"]]⟩ (fun _ => true)).removed_rows =
      ((validatorValidate ⟨["email"], [[some "a@ex.com"]]⟩ (fun _ => true)).initial_count : Int) -
        ((validatorValidate ⟨["email"], [[some "a@ex.com"]]⟩ (fun _ => true)).final_count : Int) :=
  clean_dataset_count_conservation c1Input c1Input ⟨["email"], [[some "a@ex.com"]]⟩
    c1Report (fun _ => true) (by decide)

/-- Claim C2: if any stage of the pipeline raises an unexpected error,
`clean_dataset` returns the empty table together with a report whose
status is `failed` carrying the error cause — never a partially-cleaned
table. -/
theorem clean_dataset_failure_returns_empty (df : Table) (e : String)
    (h : clean_datasetE df = .error e) :
    clean_dataset df = (emptyTable, failedCReport e) := by
  unfold clean_dataset
  rw [h]

/-- Witness for C2: the fuzzy stage raises on a missing email cell (the
Python `row.get('email', '').split('@')` on `NaN`), and the run returns
the empty table plus the failed report. -/
theorem clean_dataset_failure_returns_empty_witness :
    clean_dataset ⟨["name", "email", "phone"], [[some "ann", none, some "1234567"]]⟩ =
      (emptyTable, failedCReport "AttributeError: nan has no attribute split") :=
  clean_dataset_failure_returns_empty
    ⟨["name", "email", "phone"], [[some "ann", none, some "1234567"]]⟩
    "AttributeError: nan has no attribute split" (by decide)

/-- Counterexample to C5: on the two scenario rows, the exact-duplicate
stage (run after column-name normalization and blank-to-missing
conversion, the only normalization preceding it) removes nothing — the
table still has 2 rows, not 1, because email lowercasing happens only in
the later format-standardization stage. -/
theorem exact_dup_scenario_counterexample :
    handleDuplicates (standardizeColumnNames (convertEmptyStringsToNan
      ⟨["name", "email"], [[some "John Doe", some "JOHN.DOE@EX.com"],
                           [some "john doe", some "john.doe@ex.com"]]⟩)) =
      .ok (⟨["name", "email"], [[some "John Doe", some "JOHN.DOE@EX.com"],
                                [some "john doe", some "john.doe@ex.com"]]⟩, 0, 0) ∧
    (2 : Nat) ≠ 1 := by
  exact ⟨by decide, by decide⟩

/-- Amended C5: the pipeline does not collapse the two scenario rows; the
exact-duplicate stage removes zero rows (values are still case-distinct
when it runs) and both rows survive the whole successful run. -/
theorem exact_dup_scenario_rows_survive :
    (clean_dataset ⟨["name", "email"],
      [[some "John Doe", some "JOHN.DOE@EX.com"],
       [some "john doe", some "john.doe@ex.com"]]⟩).2.exact_duplicates_removed = 0 ∧
    (clean_dataset ⟨["name", "email"],
      [[some "John Doe", some "JOHN.DOE@EX.com"],
       [some "john doe", some "john.doe@ex.com"]]⟩).2.cleaning_status = "success" ∧
    (clean_dataset ⟨["name", "email"],
      [[some "John Doe", some "JOHN.DOE@EX.com"],
       [some "john doe", some "john.doe@ex.com"]]⟩).1.rows.length = 2 := by
  refine ⟨by decide, by decide, by decide⟩

/-- Counterexample to C6: a table whose first pipeline run succeeds while
the second run on its output removes one more row — email lowercasing
after duplicate removal re-creates equal rows, so a cleaned table is not a
fixed point. -/
theorem pipeline_not_idempotent_counterexample :
    (clean_dataset ⟨["name", "email"],
      [[some "a", some "X@ex.com"], [some "a", some "x@ex.com"]]⟩).2.cleaning_status =
      "success" ∧
    (clean_dataset (clean_dataset ⟨["name", "email"],
      [[some "a", some "X@ex.com"], [some "a", some "x@ex.com"]]⟩).1).2.rows_removed = 1 := by
  exact ⟨by decide, by decide⟩

/-- Claim C8 at the failing input: with the larger value first in the
column order, the symmetric-pair deduplication fails — the unordered pair
appears twice and its first occurrence is stored as `(max, min)`, because
the guard compares the *sorted* candidate with the *unsorted* stored
pairs.  (The well-formed parts of the claim — distinct values, scores at
least the threshold, malformed tuples skipped — do hold; the at-most-once
`(min, max)` storage does not.) -/
theorem find_fuzzy_duplicates_symmetric_pair_duplicated :
    (find_fuzzy_duplicates ["bb", "ab"]
      (fun v => if v == "bb" then [some ("ab", 90)] else [some ("bb", 89)]) 85).1 =
      [⟨"bb", "ab", 90⟩, ⟨"ab", "bb", 89⟩] ∧
    sortedPair "bb" "ab" = ("ab", "bb") := by
  exact ⟨by decide, by decide⟩

/-- Claim C10: `_remove_fuzzy_duplicates` never reads its `threshold`
parameter, so its output — table and removed count — is identical for any
two thresholds on every input table. -/
theorem remove_fuzzy_duplicates_threshold_independent (t : Table) (th1 th2 : Nat) :
    removeFuzzyDuplicates t th1 = removeFuzzyDuplicates t th2 := rfl

/-! ### Merge-resolver lemmas -/

/-- A list of options that are not all missing has a non-missing element. -/
theorem filterMap_id_ne_nil {α : Type} (vs : List (Option α))
    (h : ¬ vs.all (·.isNone) = true) : vs.filterMap id ≠ [] := by
  rw [List.all_eq_true] at h
  push_neg at h
  obtain ⟨x, hx, hnx⟩ := h
  cases x with
  | none => simp at hnx
  | some a =>
    exact List.ne_nil_of_mem (List.mem_filterMap.mpr ⟨some a, hx, rfl⟩)

/-- A list of options that are all missing has no non-missing element. -/
theorem filterMap_id_eq_nil {α : Type} (vs : List (Option α))
    (h : vs.all (·.isNone) = true) : vs.filterMap id = [] := by
  rw [List.all_eq_true] at h
  rw [List.filterMap_eq_nil_iff]
  intro x hx
  have := h x hx
  cases x <;> simp_all

/-- `first_valid` always succeeds, and yields missing on an all-missing
column. -/
theorem mergeFirstValid_total (c : Column) :
    ∃ v, mergeFirstValid c = .ok v ∧ (c.allNull = true → v = none) := by
  unfold mergeFirstValid
  by_cases h : c.allNull = true
  · exact ⟨none, by simp [h], fun _ => rfl⟩
  · cases c with
    | obj vs =>
      simp only [Column.allNull] at h
      have hne := filterMap_id_ne_nil vs h
      cases hh : (vs.filterMap id).head? with
      | none => exact absurd (List.head?_eq_none_iff.mp hh) hne
      | some v =>
        refine ⟨some (.s v), ?_, fun hc => absurd hc (by simpa [Column.allNull] using h)⟩
        simp only [Column.allNull]
        rw [if_neg h, hh]
    | num vs =>
      simp only [Column.allNull] at h
      have hne := filterMap_id_ne_nil vs h
      cases hh : (vs.filterMap id).head? with
      | none => exact absurd (List.head?_eq_none_iff.mp hh) hne
      | some v =>
        refine ⟨some (.n v), ?_, fun hc => absurd hc (by simpa [Column.allNull] using h)⟩
        simp only [Column.allNull]
        rw [if_neg h, hh]

/-- The total merged value of one field: the payload of the (sole)
successful `mergeField` outcome. -/
def mergeValue (strategy : String) (c : Column) : Option MVal :=
  match mergeField strategy c with
  | .ok v => v
  | .error _ => none

/-- An all-missing column concatenates to nothing: every rendered string
becomes empty. -/
theorem concat_all_missing (c : Column) (h : c.allNull = true) :
    ((c.astypeStr.map strTrim).map (fun s => if s == "nan" then "" else s)).filter
      (fun s => !(s == "")) = [] := by
  rw [List.filter_eq_nil_iff]
  intro s hs
  simp only [List.map_map, List.mem_map] at hs
  obtain ⟨u, hu, hus⟩ := hs
  cases c with
  | obj vs =>
    simp only [Column.allNull, List.all_eq_true] at h
    simp only [Column.astypeStr, List.mem_map] at hu
    obtain ⟨v, hv, hvu⟩ := hu
    have := h v hv
    cases v with
    | some a => simp at this
    | none =>
      simp only [Option.getD_none] at hvu
      subst hvu
      subst hus
      decide
  | num vs =>
    simp only [Column.allNull, List.all_eq_true] at h
    simp only [Column.astypeStr, List.mem_map] at hu
    obtain ⟨v, hv, hvu⟩ := hu
    have := h v hv
    cases v with
    | some a => simp at this
    | none =>
      subst hvu
      subst hus
      decide

/-- For a strategy name outside the recognized list, `mergeField` falls
back to `first_valid`. -/
theorem mergeField_unknown (strategy : String) (c : Column)
    (hk : strategy ∉ knownStrategies) : mergeField strategy c = mergeFirstValid c := by
  simp only [knownStrategies, List.mem_cons, List.not_mem_nil, or_false, not_or] at hk
  obtain ⟨n1, n2, n3, n4, n5, n6⟩ := hk
  unfold mergeField
  rw [if_neg (by simpa using n1), if_neg (by simpa using n2), if_neg (by simpa using n3),
    if_neg (by simpa using n4), if_neg (by simpa using n5), if_neg (by simpa using n6)]

/-- Every strategy except `average`-on-a-text-column succeeds on every
column, and yields missing on an all-missing column. -/
theorem mergeField_total (strategy : String) (c : Column)
    (havg : strategy = "average" → ∀ vs, c = .obj vs → vs.filterMap id = []) :
    mergeField strategy c = .ok (mergeValue strategy c) ∧
      (c.allNull = true → mergeValue strategy c = none) := by
  have main : ∃ v, mergeField strategy c = .ok v ∧ (c.allNull = true → v = none) := by
    by_cases hk : strategy ∈ knownStrategies
    · simp only [knownStrategies, List.mem_cons, List.not_mem_nil, or_false] at hk
      rcases hk with rfl | rfl | rfl | rfl | rfl | rfl
      · rw [show mergeField "first_valid" c = mergeFirstValid c from rfl]
        exact mergeFirstValid_total c
      · cases c with
        | obj vs =>
          rw [show mergeField "most_frequent" (.obj vs) =
            .ok ((modeFirst vs).map .s) from rfl]
          refine ⟨(modeFirst vs).map .s, rfl, fun hall => ?_⟩
          have hnil := filterMap_id_eq_nil vs (by simpa [Column.allNull] using hall)
          unfold modeFirst
          rw [hnil]
          simp [dedupKeepFirst, sortStrings]
        | num vs =>
          rw [show mergeField "most_frequent" (.num vs) =
            mergeFirstValid (.num vs) from rfl]
          exact mergeFirstValid_total _
      · rw [show mergeField "concatenate" c =
          .ok (if (dedupKeepFirst [] (((c.astypeStr.map strTrim).map
              (fun s => if s == "nan" then "" else s)).filter
              (fun s => !(s == "")))).isEmpty then none
            else some (.s (joinSep "; " (dedupKeepFirst [] (((c.astypeStr.map strTrim).map
              (fun s => if s == "nan" then "" else s)).filter
              (fun s => !(s == ""))))))) from rfl]
        refine ⟨_, rfl, fun hall => ?_⟩
        rw [concat_all_missing c hall]
        simp [dedupKeepFirst]
      · cases c with
        | obj vs =>
          have hnil : vs.filterMap id = [] := havg rfl vs rfl
          rw [show mergeField "average" (.obj vs) =
            (if (vs.filterMap id).isEmpty = true then Except.ok none
             else Except.error "TypeError: could not convert string to numeric") from rfl,
            hnil]
          exact ⟨none, by simp, fun _ => rfl⟩
        | num vs =>
          rw [show mergeField "average" (.num vs) =
            (if (vs.filterMap id).isEmpty = true then Except.ok none
             else Except.ok (some (.n ((vs.filterMap id).sum /
               ((vs.filterMap id).length : Rat))))) from rfl]
          by_cases hall : vs.all (·.isNone) = true
          · rw [filterMap_id_eq_nil vs hall]
            exact ⟨none, by simp, fun _ => rfl⟩
          · have hne := filterMap_id_ne_nil vs hall
            rw [if_neg (by simpa [List.isEmpty_iff] using hne)]
            exact ⟨_, rfl, fun hc =>
              absurd (by simpa [Column.allNull] using hc) hall⟩
      · cases c with
        | obj vs =>
          rw [show mergeField "min" (.obj vs) =
            (if (vs.filterMap id).isEmpty = true then Except.ok none
             else Except.ok (((vs.filterMap id).min?).map .s)) from rfl]
          by_cases hall : vs.all (·.isNone) = true
          · rw [filterMap_id_eq_nil vs hall]
            exact ⟨none, by simp, fun _ => rfl⟩
          · have hne := filterMap_id_ne_nil vs hall
            rw [if_neg (by simpa [List.isEmpty_iff] using hne)]
            exact ⟨_, rfl, fun hc =>
              absurd (by simpa [Column.allNull] using hc) hall⟩
        | num vs =>
          rw [show mergeField "min" (.num vs) =
            (if (vs.filterMap id).isEmpty = true then Except.ok none
             else Except.ok (((vs.filterMap id).min?).map .n)) from rfl]
          by_cases hall : vs.all (·.isNone) = true
          · rw [filterMap_id_eq_nil vs hall]
            exact ⟨none, by simp, fun _ => rfl⟩
          · have hne := filterMap_id_ne_nil vs hall
            rw [if_neg (by simpa [List.isEmpty_iff] using hne)]
            exact ⟨_, rfl, fun hc =>
              absurd (by simpa [Column.allNull] using hc) hall⟩
      · cases c with
        | obj vs =>
          rw [show mergeField "max" (.obj vs) =
            (if (vs.filterMap id).isEmpty = true then Except.ok none
             else Except.ok (((vs.filterMap id).max?).map .s)) from rfl]
          by_cases hall : vs.all (·.isNone) = true
          · rw [filterMap_id_eq_nil vs hall]
            exact ⟨none, by simp, fun _ => rfl⟩
          · have hne := filterMap_id_ne_nil vs hall
            rw [if_neg (by simpa [List.isEmpty_iff] using hne)]
            exact ⟨_, rfl, fun hc =>
              absurd (by simpa [Column.allNull] using hc) hall⟩
        | num vs =>
          rw [show mergeField "max" (.num vs) =
            (if (vs.filterMap id).isEmpty = true then Except.ok none
             else Except.ok (((vs.filterMap id).max?).map .n)) from rfl]
          by_cases hall : vs.all (·.isNone) = true
          · rw [filterMap_id_eq_nil vs hall]
            exact ⟨none, by simp, fun _ => rfl⟩
          · have hne := filterMap_id_ne_nil vs hall
            rw [if_neg (by simpa [List.isEmpty_iff] using hne)]
            exact ⟨_, rfl, fun hc =>
              absurd (by simpa [Column.allNull] using hc) hall⟩
    · rw [mergeField_unknown strategy c hk]
      exact mergeFirstValid_total c
  obtain ⟨v, hv, hall⟩ := main
  have hmv : mergeValue strategy c = v := by
    unfold mergeValue
    rw [hv]
  rw [hmv, hv]
  exact ⟨rfl, hall⟩

/-- Pointwise success with a known value yields the mapped `mapM`. -/
theorem except_mapM_ok_map {α β : Type} (f : α → Except String β) (g : α → β)
    (l : List α) (h : ∀ x ∈ l, f x = .ok (g x)) : l.mapM f = .ok (l.map g) := by
  induction l with
  | nil => rfl
  | cons x xs ih =>
    rw [List.mapM_cons, h x (by simp), except_bind_ok,
      ih (fun y hy => h y (by simp [hy])), except_bind_ok]
    rfl

/-- Counterexample to C3: the `average` strategy on a text (object-dtype)
column with a non-missing value raises — pandas `Series.mean` cannot
convert strings — so `merge_duplicate_records` is not total over every
field and policy; the group here is non-empty. -/
theorem merge_average_on_text_counterexample :
    merge_duplicate_records [("note", .obj [some "a", some "b"])] "average" =
      .error "TypeError: could not convert string to numeric" ∧
    0 < (Column.obj [some "a", some "b"]).size := by
  exact ⟨by decide, by decide⟩

/-- Amended C3: `merge_duplicate_records` is total — returning one
(possibly missing) value per field, with all-missing fields resolved to
missing under every policy (`average` included), and unrecognized policy
names falling back to `first_valid` — for every non-empty group, except
that the `average` policy demands each text column be all-missing (on text
data pandas `mean` raises). -/
theorem merge_duplicate_records_total_amended (strategy : String)
    (gcols : List (String × Column))
    (hne : ∀ p ∈ gcols, 0 < p.2.size)
    (havg : strategy = "average" →
      ∀ p ∈ gcols, ∀ vs, p.2 = Column.obj vs → vs.filterMap id = []) :
    merge_duplicate_records gcols strategy =
      .ok (gcols.map (fun p => (p.1, mergeValue strategy p.2))) ∧
    (∀ p ∈ gcols, p.2.allNull = true → mergeValue strategy p.2 = none) ∧
    (strategy ∉ knownStrategies →
      merge_duplicate_records gcols strategy =
        merge_duplicate_records gcols "first_valid") := by
  have hfield : ∀ p ∈ gcols, mergeField strategy p.2 = .ok (mergeValue strategy p.2) ∧
      (p.2.allNull = true → mergeValue strategy p.2 = none) := by
    intro p hp
    exact mergeField_total strategy p.2 (fun hs vs hv => havg hs p hp vs hv)
  refine ⟨?_, fun p hp => (hfield p hp).2, ?_⟩
  · unfold merge_duplicate_records
    refine except_mapM_ok_map _ _ gcols ?_
    intro p hp
    rw [show (do
        let v ← mergeField strategy p.2
        pure (p.1, v) : Except String (String × Option MVal)) =
      (mergeField strategy p.2) >>= (fun v => pure (p.1, v)) from rfl]
    rw [(hfield p hp).1, except_bind_ok]
    rfl
  · intro hk
    unfold merge_duplicate_records
    have he : ∀ p : String × Column,
        (do
          let v ← mergeField strategy p.2
          pure (p.1, v) : Except String (String × Option MVal)) =
        (do
          let v ← mergeField "first_valid" p.2
          pure (p.1, v)) := by
      intro p
      rw [show (do
          let v ← mergeField strategy p.2
          pure (p.1, v) : Except String (String × Option MVal)) =
        (mergeField strategy p.2) >>= (fun v => pure (p.1, v)) from rfl]
      rw [mergeField_unknown strategy p.2 hk]
      rfl
    rw [funext he]

/-- Witness for the amended C3: an unrecognized strategy (`zzz`) on a
group with an all-missing text column and a populated one — the
hypotheses hold, the result has one value per field, the all-missing
field resolves to missing, and the fallback agrees with `first_valid`. -/
theorem merge_duplicate_records_total_amended_witness :
    merge_duplicate_records [("a", Column.obj [none, none]),
        ("b", Column.obj [some "x", some "y"])] "zzz" =
      .ok ([("a", Column.obj [none, none]),
            ("b", Column.obj [some "x", some "y"])].map
        (fun p => (p.1, mergeValue "zzz" p.2))) ∧
    (∀ p ∈ [("a", Column.obj [none, none]),
            ("b", Column.obj [some "x", some "y"])],
      p.2.allNull = true → mergeValue "zzz" p.2 = none) ∧
    ("zzz" ∉ knownStrategies →
      merge_duplicate_records [("a", Column.obj [none, none]),
          ("b", Column.obj [some "x", some "y"])] "zzz" =
        merge_duplicate_records [("a", Column.obj [none, none]),
            ("b", Column.obj [some "x", some "y"])] "first_valid") :=
  merge_duplicate_records_total_amended "zzz"
    [("a", Column.obj [none, none]), ("b", Column.obj [some "x", some "y"])]
    (by decide)
    (by intro h; exact absurd h (by decide))

/-! ### Ordering lemmas for the mode tie-break -/

/-- Reflexivity of the code-point comparison. -/
theorem charListLe_refl (cs : List Char) : charListLe cs cs = true := by
  induction cs with
  | nil => rfl
  | cons c cs ih => simp [charListLe, ih]

/-- Totality of the code-point comparison. -/
theorem charListLe_total (as bs : List Char) :
    charListLe as bs = true ∨ charListLe bs as = true := by
  induction as generalizing bs with
  | nil => left
           rfl
  | cons a as ih =>
    cases bs with
    | nil => right
             rfl
    | cons b bs =>
      by_cases h1 : a.toNat < b.toNat
      · left
        simp [charListLe, h1]
      · by_cases h2 : b.toNat < a.toNat
        · right
          simp [charListLe, h2]
        · rcases ih bs with h | h
          · left
            simp [charListLe, h1, h2, h]
          · right
            simp [charListLe, h1, h2, h]

/-- Transitivity of the code-point comparison. -/
theorem charListLe_trans (as bs cs : List Char) (h1 : charListLe as bs = true)
    (h2 : charListLe bs cs = true) : charListLe as cs = true := by
  induction as generalizing bs cs with
  | nil => rfl
  | cons a as ih =>
    cases bs with
    | nil => simp [charListLe] at h1
    | cons b bs =>
      cases cs with
      | nil => simp [charListLe] at h2
      | cons c cs =>
        simp only [charListLe] at h1 h2 ⊢
        by_cases hab : a.toNat < b.toNat
        · by_cases hbc : b.toNat < c.toNat
          · simp [show a.toNat < c.toNat by omega]
          · by_cases hcb : c.toNat < b.toNat
            · simp [hbc, hcb] at h2
            · simp [show a.toNat < c.toNat by omega]
        · by_cases hba : b.toNat < a.toNat
          · simp [hab, hba] at h1
          · by_cases hbc : b.toNat < c.toNat
            · simp [show a.toNat < c.toNat by omega]
            · by_cases hcb : c.toNat < b.toNat
              · simp [hbc, hcb] at h2
              · have hac : ¬ a.toNat < c.toNat := by omega
                have hca : ¬ c.toNat < a.toNat := by omega
                simp only [hab, hba, if_neg hac, if_neg hca, if_false] at h1 ⊢
                simp only [if_neg hbc, if_neg hcb, if_false] at h2
                exact ih bs cs (by simpa [hab, hba] using h1) h2

/-- Reflexivity of the string comparison. -/
theorem strLe_refl (a : String) : strLe a a = true := charListLe_refl _

/-- `insertSorted` permutes the inserted element into the list. -/
theorem insertSorted_perm (x : String) (l : List String) :
    (insertSorted x l).Perm (x :: l) := by
  induction l with
  | nil => exact List.Perm.refl _
  | cons y ys ih =>
    by_cases h : strLe x y
    · simp [insertSorted, h]
    · simp only [insertSorted, if_neg h]
      exact (ih.cons y).trans (List.Perm.swap x y ys)

/-- `sortStrings` permutes its input. -/
theorem sortStrings_perm (l : List String) : (sortStrings l).Perm l := by
  induction l with
  | nil => exact List.Perm.refl _
  | cons x xs ih => exact (insertSorted_perm x (sortStrings xs)).trans (ih.cons x)

/-- Inserting into a `strLe`-sorted list keeps it sorted. -/
theorem insertSorted_pairwise (x : String) (l : List String)
    (h : l.Pairwise (fun a b => strLe a b = true)) :
    (insertSorted x l).Pairwise (fun a b => strLe a b = true) := by
  induction l with
  | nil => simp [insertSorted]
  | cons y ys ih =>
    rw [List.pairwise_cons] at h
    by_cases hxy : strLe x y
    · simp only [insertSorted, if_pos hxy]
      refine List.Pairwise.cons ?_ (List.pairwise_cons.mpr h)
      intro z hz
      rcases List.mem_cons.mp hz with rfl | hz
      · exact hxy
      · exact charListLe_trans _ _ _ hxy (h.1 z hz)
    · simp only [insertSorted, if_neg hxy]
      have hyx : strLe y x = true := by
        rcases charListLe_total x.toList y.toList with hc | hc
        · exact absurd hc hxy
        · exact hc
      refine List.Pairwise.cons ?_ (ih h.2)
      intro z hz
      have hz' : z ∈ x :: ys := (insertSorted_perm x ys).mem_iff.mp hz
      rcases List.mem_cons.mp hz' with rfl | hz2
      · exact hyx
      · exact h.1 z hz2

/-- `sortStrings` outputs are `strLe`-sorted. -/
theorem sortStrings_pairwise (l : List String) :
    (sortStrings l).Pairwise (fun a b => strLe a b = true) := by
  induction l with
  | nil => simp [sortStrings]
  | cons x xs ih => exact insertSorted_pairwise x (sortStrings xs) ih

/-- The distinct non-missing values of maximal frequency in a column: the
tie set of the `most_frequent` policy. -/
def modeCandidates (vals : List (Option String)) : List String :=
  let xs := vals.filterMap id
  let uniq := dedupKeepFirst [] xs
  let maxC := (uniq.map (fun v => xs.count v)).max?.getD 0
  uniq.filter (fun v => xs.count v == maxC)

/-- Counterexample to C4: on the tied column values `["b", "a"]` (each
once), the merged `most_frequent` value is `"a"` — pandas `mode` returns
the tied values sorted ascending — while the first value encountered in
the group's original order is `"b"`. -/
theorem most_frequent_tie_counterexample :
    merge_duplicate_records [("city", Column.obj [some "b", some "a"])]
      "most_frequent" = .ok [("city", some (.s "a"))] ∧
    MVal.s "a" ≠ MVal.s "b" := by
  exact ⟨by decide, by decide⟩

/-- Amended C4: under `most_frequent`, when several values of a field are
tied for the highest frequency within a group, the merged value is the
least tied value in ascending string order (pandas `mode` sorts), not the
first encountered in the group's original order. -/
theorem most_frequent_tie_least (vals : List (Option String)) (m : String)
    (h : mergeField "most_frequent" (.obj vals) = .ok (some (.s m))) :
    m ∈ modeCandidates vals ∧ ∀ x ∈ modeCandidates vals, strLe m x = true := by
  have hmode : (modeFirst vals).map MVal.s = some (.s m) := by
    have h2 := h
    rw [show mergeField "most_frequent" (.obj vals) =
      .ok ((modeFirst vals).map .s) from rfl] at h2
    exact Except.ok.inj h2
  have hm : modeFirst vals = some m := by
    cases hmf : modeFirst vals with
    | none => rw [hmf] at hmode; cases hmode
    | some v =>
      rw [hmf] at hmode
      have hvm : MVal.s v = MVal.s m := Option.some.inj hmode
      injection hvm with hv
      rw [hv]
  have hhead : (sortStrings (modeCandidates vals)).head? = some m := by
    rw [show (sortStrings (modeCandidates vals)).head? = modeFirst vals from rfl]
    exact hm
  cases hs : sortStrings (modeCandidates vals) with
  | nil => rw [hs] at hhead; cases hhead
  | cons m0 rest =>
    rw [hs] at hhead
    have hm0 : m0 = m := by simpa using hhead
    subst hm0
    have hperm := sortStrings_perm (modeCandidates vals)
    rw [hs] at hperm
    have hpw := sortStrings_pairwise (modeCandidates vals)
    rw [hs] at hpw
    constructor
    · exact hperm.mem_iff.mp (by simp)
    · intro x hx
      have hx' : x ∈ m0 :: rest := hperm.mem_iff.mpr hx
      rcases List.mem_cons.mp hx' with rfl | hx2
      · exact strLe_refl x
      · exact (List.pairwise_cons.mp hpw).1 x hx2

/-- Witness for the amended C4 at the tied input: `"a"` is the least of
the tied values `{"a", "b"}`. -/
theorem most_frequent_tie_least_witness :
    "a" ∈ modeCandidates [some "b", some "a"] ∧
    ∀ x ∈ modeCandidates [some "b", some "a"], strLe "a" x = true :=
  most_frequent_tie_least [some "b", some "a"] "a" (by decide)

/-! ### Partition of the grouping passes -/

/-- Folding the `identify_duplicate_groups` step: the member indices are,
up to permutation, the accumulator's members plus the indices whose key
cells are all present. -/
theorem identify_go_flatten_perm (cols keys : List String)
    (ps : List (Nat × List (Option String)))
    (gs : List (List String × List Nat)) :
    ((ps.foldl (fun gs p =>
        match rowKeyCells cols keys p.2 with
        | some k => addToGroups gs k p.1
        | none => gs) gs).map Prod.snd).flatten.Perm
      ((gs.map Prod.snd).flatten ++
        (ps.filter (fun p => (rowKeyCells cols keys p.2).isSome)).map Prod.fst) := by
  induction ps generalizing gs with
  | nil => simp
  | cons p rest ih =>
    simp only [List.foldl_cons, List.filter_cons]
    cases hk : rowKeyCells cols keys p.2 with
    | none =>
      simp only [hk, Option.isSome_none, Bool.false_eq_true, if_false]
      exact ih gs
    | some k =>
      simp only [hk, Option.isSome_some, if_true, List.map_cons]
      refine (ih (addToGroups gs k p.1)).trans ?_
      refine ((addToGroups_flatten_perm gs k p.1).append_right _).trans ?_
      simp [List.append_assoc]

/-- Counterexample to C7: a one-record table whose sole key cell is
missing — `identify_duplicate_groups` (pandas `groupby`, which drops
missing keys) returns no groups at all, so the record lies in zero
candidate groups and the union of groups is not the input record set. -/
theorem identify_groups_missing_key_counterexample :
    identify_duplicate_groups ⟨["k"], [[none]]⟩ ["k"] = [] ∧
    (⟨["k"], [[none]]⟩ : Table).rows.length = 1 := by
  exact ⟨by decide, by decide⟩

/-- Amended C7: the fuzzy-stage grouping pass is a partition — every
record index below the table length belongs to exactly one candidate
group — while `identify_duplicate_groups` partitions exactly the records
whose key cells are all present (records with a missing key cell are in
zero groups). -/
theorem grouping_partition_amended :
    (∀ (K : Type) (_ : DecidableEq K) (keys : List K) (i : Nat),
      (((groupPairs keys.enum).map Prod.snd).flatten).count i =
        if i < keys.length then 1 else 0) ∧
    (∀ (t : Table) (keys : List String),
      ((identify_duplicate_groups t keys).map Prod.snd).flatten.Perm
        ((t.rows.enum.filter
          (fun p => (rowKeyCells t.cols keys p.2).isSome)).map Prod.fst)) := by
  constructor
  · intro K instK keys i
    have hperm := groupPairs_enum_perm keys
    rw [hperm.count_eq]
    by_cases h : i < keys.length
    · rw [if_pos h]
      exact List.count_eq_one_of_mem (List.nodup_range _) (List.mem_range.mpr h)
    · rw [if_neg h]
      exact List.count_eq_zero_of_not_mem (fun hc => h (List.mem_range.mp hc))
  · intro t keys
    unfold identify_duplicate_groups
    simpa using identify_go_flatten_perm t.cols keys t.rows.enum []

/-! ### Semantics of the kept record per bucket -/

/-- The record the claim says is kept: among a bucket's members, the
earliest table position whose row attains the maximal number of
non-missing fields. -/
def specKeptIdx (t : Table) (g : List Nat) : Nat :=
  let score : Nat → Nat := fun i => notnaCount (t.rows.getD i [])
  let m := (g.map score).max?.getD 0
  ((g.filter (fun i => score i == m)).min?).getD 0

/-- Folding `min` over elements all at least the seed returns the seed. -/
theorem foldl_min_eq_self (x : Nat) (xs : List Nat) (h : ∀ y ∈ xs, x ≤ y) :
    xs.foldl min x = x := by
  induction xs with
  | nil => rfl
  | cons y ys ih =>
    simp only [List.foldl_cons]
    rw [min_eq_left (h y (by simp))]
    exact ih (fun z hz => h z (by simp [hz]))

/-- On a strictly increasing list the head is the minimum. -/
theorem sorted_headD_eq_min (l : List Nat) (h : l.Sorted (· < ·)) (hne : l ≠ []) :
    l.headD 0 = (l.min?).getD 0 := by
  cases l with
  | nil => exact absurd rfl hne
  | cons x xs =>
    rw [show (x :: xs).min? = some (xs.foldl min x) from rfl]
    simp only [List.headD_cons, Option.getD_some]
    rw [foldl_min_eq_self x xs]
    intro y hy
    exact le_of_lt ((List.pairwise_cons.mp h).1 y hy)

/-- For a non-empty strictly-increasing bucket, the source's kept index
(`idxmax`: first position attaining the maximal score) is exactly the
claim's kept index (earliest table position attaining the maximal
score). -/
theorem codeBest_eq_specKeptIdx (t : Table) (g : List Nat) (hne : g ≠ [])
    (hs : g.Sorted (· < ·)) : codeBest t g = specKeptIdx t g := by
  unfold codeBest specKeptIdx
  by_cases h1 : g.length > 1
  · simp only [if_pos h1]
    have hmax : (g.map (fun i => notnaCount (t.rows.getD i []))).max?.getD 0
        ∈ g.map (fun i => notnaCount (t.rows.getD i [])) :=
      max?_getD_mem _ (by simpa using hne)
    obtain ⟨i, hi, hsi⟩ := List.mem_map.mp hmax
    have hfil : i ∈ g.filter (fun i => notnaCount (t.rows.getD i []) ==
        (g.map (fun i => notnaCount (t.rows.getD i []))).max?.getD 0) := by
      simp only [List.mem_filter, beq_iff_eq]
      exact ⟨hi, by simpa using hsi⟩
    exact sorted_headD_eq_min _ (hs.filter _) (List.ne_nil_of_mem hfil)
  · simp only [if_neg h1]
    cases g with
    | nil => exact absurd rfl hne
    | cons i rest =>
      have hr : rest = [] := by
        cases rest with
        | nil => rfl
        | cons j rs => simp at h1
      subst hr
      simp [List.min?]

/-- `filterMap` with known `some` images is a `map`. -/
theorem filterMap_eq_map {α β : Type} (f : α → Option β) (g : α → β) (l : List α)
    (h : ∀ x ∈ l, f x = some (g x)) : l.filterMap f = l.map g := by
  induction l with
  | nil => rfl
  | cons x xs ih =>
    rw [List.filterMap_cons, h x (by simp), List.map_cons,
      ih (fun y hy => h y (by simp [hy]))]

/-- Claim C9: in fuzzy-duplicate removal, for every bucket of records
sharing the same composite key (normalized name, normalized email local
part, first 7 characters of the phone string), the record kept is one
with the maximal number of non-missing fields — the earliest such record
in the table on ties — all other bucket members are dropped (the result
holds exactly one row per bucket), and the removed count is the sum of
`size - 1` over buckets of size greater than one. -/
theorem remove_fuzzy_duplicates_semantics (t : Table) (th : Nat) (t' : Table)
    (removed : Nat) (keys : List (String × String × String))
    (hk : t.rows.mapM (fuzzyKey t.cols) = .ok keys)
    (h : removeFuzzyDuplicates t th = .ok (t', removed)) :
    removed = ((groupPairs keys.enum).map (fun q => groupExcess q.2)).sum ∧
    t'.rows = (groupPairs keys.enum).map
      (fun q => t.rows.getD (specKeptIdx t q.2) []) := by
  rw [removeFuzzyDuplicates_eq t th keys hk] at h
  injection h with hval
  rw [Prod.mk.injEq] at hval
  obtain ⟨ht', hrem⟩ := hval
  subst hrem
  refine ⟨rfl, ?_⟩
  rw [← ht']
  have hne := groupPairs_nonempty keys.enum
  have hsorted : ∀ q ∈ groupPairs keys.enum, q.2.Sorted (· < ·) := by
    refine groupPairs_sorted keys.enum ?_
    rw [List.enum_map_fst]
    exact List.pairwise_lt_range _
  have hperm := groupPairs_enum_perm keys
  have hkeylen : keys.length = t.rows.length := except_mapM_ok_length _ _ _ hk
  have hbest : ∀ q ∈ groupPairs keys.enum, codeBest t q.2 < t.rows.length := by
    intro q hq
    have hmem : codeBest t q.2 ∈ ((groupPairs keys.enum).map Prod.snd).flatten := by
      rw [List.mem_flatten]
      exact ⟨q.2, List.mem_map_of_mem Prod.snd hq, codeBest_mem t q.2 (hne q hq)⟩
    have := hperm.mem_iff.mp hmem
    rw [List.mem_range] at this
    omega
  show ((groupPairs keys.enum).map (fun q => codeBest t q.2)).filterMap
      (fun i => t.rows[i]?) = _
  rw [filterMap_eq_map (fun i => t.rows[i]?)
    (fun i => t.rows.getD i []) _ ?_]
  · rw [List.map_map]
    refine List.map_congr_left ?_
    intro q hq
    simp only [Function.comp]
    rw [codeBest_eq_specKeptIdx t q.2 (hne q hq) (hsorted q hq)]
  · intro i hi
    obtain ⟨q, hq, hiq⟩ := List.mem_map.mp hi
    subst hiq
    show t.rows[codeBest t q.2]? = some (t.rows.getD (codeBest t q.2) [])
    rw [List.getElem?_eq_getElem (hbest q hq),
      List.getD_eq_getElem t.rows [] (hbest q hq)]

/-- Witness for C9: two records share the composite key (equal normalized
names and email local parts, equal 7-character phone prefixes); the more
complete second record is kept, the other is dropped, one removal is
counted, and the singleton bucket survives untouched. -/
theorem remove_fuzzy_duplicates_semantics_witness :
    (1 : Nat) = ((groupPairs ([("ann", "ann", "1234567"),
        ("ann", "ann", "1234567"), ("bob", "bob", "9999999")] :
        List (String × String × String)).enum).map
      (fun q => groupExcess q.2)).sum ∧
    (⟨["name", "email", "phone", "address"],
      [[some "a nn", some "ann@other.com", some "1234567111", some "addr"],
       [some "bob", some "bob@ex.com", some "9999999", some "x"]]⟩ : Table).rows =
      (groupPairs ([("ann", "ann", "1234567"), ("ann", "ann", "1234567"),
          ("bob", "bob", "9999999")] :
          List (String × String × String)).enum).map
        (fun q => (⟨["name", "email", "phone", "address"],
          [[some "Ann", some "ann@ex.com", some "1234567890", none],
           [some "a nn", some "ann@other.com", some "1234567111", some "addr"],
           [some "bob", some "bob@ex.com", some "9999999", some "x"]]⟩ : Table).rows.getD
          (specKeptIdx ⟨["name", "email", "phone", "address"],
            [[some "Ann", some "ann@ex.com", some "1234567890", none],
             [some "a nn", some "ann@other.com", some "1234567111", some "addr"],
             [some "bob", some "bob@ex.com", some "9999999", some "x"]]⟩ q.2) []) :=
  remove_fuzzy_duplicates_semantics
    ⟨["name", "email", "phone", "address"],
      [[some "Ann", some "ann@ex.com", some "1234567890", none],
       [some "a nn", some "ann@other.com", some "1234567111", some "addr"],
       [some "bob", some "bob@ex.com", some "9999999", some "x"]]⟩ 88
    ⟨["name", "email", "phone", "address"],
      [[some "a nn", some "ann@other.com", some "1234567111", some "addr"],
       [some "bob", some "bob@ex.com", some "9999999", some "x"]]⟩ 1
    [("ann", "ann", "1234567"), ("ann", "ann", "1234567"), ("bob", "bob", "9999999")]
    (by decide) (by decide)

/-! ### Idempotence of the duplicate-handling stage -/

/-- Group keys are pairwise distinct. -/
theorem groupPairs_keys_nodup {K : Type} [DecidableEq K] (ps : List (Nat × K)) :
    ((groupPairs ps).map Prod.fst).Nodup := by
  suffices h : ∀ (sfx : List (Nat × K)) (gs : List (K × List Nat)),
      (gs.map Prod.fst).Nodup →
      ((sfx.foldl (fun gs p => addToGroups gs p.2 p.1) gs).map Prod.fst).Nodup by
    exact h ps [] (by simp)
  intro sfx
  induction sfx with
  | nil => intro gs h; simpa using h
  | cons p rest ih =>
    intro gs hnd
    simp only [List.foldl_cons]
    refine ih _ ?_
    rw [addToGroups_keys]
    by_cases hm : p.2 ∈ gs.map Prod.fst
    · rw [if_pos hm]
      exact hnd
    · rw [if_neg hm]
      simp only [List.nodup_append, List.nodup_cons, List.not_mem_nil,
        not_false_eq_true, List.nodup_nil, and_true, true_and]
      refine ⟨hnd, ?_⟩
      intro a ha
      simp only [List.mem_singleton]
      intro hk
      exact hm (hk ▸ ha)

/-- Inserting a fresh key appends a singleton group at the end. -/
theorem addToGroups_new {K : Type} [DecidableEq K] (gs : List (K × List Nat))
    (k : K) (i : Nat) (h : k ∉ gs.map Prod.fst) :
    addToGroups gs k i = gs ++ [(k, [i])] := by
  induction gs with
  | nil => rfl
  | cons q rest ih =>
    obtain ⟨k', is'⟩ := q
    have hk : k' ≠ k := by
      intro he
      exact h (by simp [he])
    simp only [addToGroups, if_neg hk, List.cons_append]
    rw [ih (fun hm => h (by simp [hm]))]

/-- With pairwise-distinct keys, grouping yields only singleton buckets,
one per pair, in order. -/
theorem groupPairs_of_nodup {K : Type} [DecidableEq K] (ps : List (Nat × K))
    (hnd : (ps.map Prod.snd).Nodup) :
    groupPairs ps = ps.map (fun p => (p.2, [p.1])) := by
  suffices h : ∀ (sfx : List (Nat × K)) (gs : List (K × List Nat)),
      (sfx.map Prod.snd).Nodup →
      (∀ p ∈ sfx, p.2 ∉ gs.map Prod.fst) →
      sfx.foldl (fun gs p => addToGroups gs p.2 p.1) gs =
        gs ++ sfx.map (fun p => (p.2, [p.1])) by
    simpa using h ps [] hnd (by simp)
  intro sfx
  induction sfx with
  | nil => intro gs _ _; simp
  | cons p rest ih =>
    intro gs hnd hdis
    simp only [List.map_cons, List.nodup_cons] at hnd
    simp only [List.foldl_cons, List.map_cons]
    rw [addToGroups_new gs p.2 p.1 (hdis p (by simp))]
    rw [ih (gs ++ [(p.2, [p.1])]) hnd.2 ?_]
    · simp
    · intro p' hp'
      simp only [List.map_append, List.mem_append, List.map_cons, List.map_nil,
        List.mem_singleton, not_or]
      refine ⟨hdis p' (by simp [hp']), ?_⟩
      intro he
      exact hnd.1 (he ▸ List.mem_map_of_mem Prod.snd hp')

/-- Reassembling a list from successful position lookups over its range. -/
theorem filterMap_getElem_range {α : Type} (l : List α) :
    (List.range l.length).filterMap (fun i => l[i]?) = l := by
  induction l with
  | nil => rfl
  | cons x xs ih =>
    rw [List.length_cons, List.range_succ_eq_map, List.filterMap_cons]
    simp only [List.getElem?_cons_zero, List.filterMap_map]
    rw [show ((fun i => (x :: xs)[i]?) ∘ Nat.succ) = (fun i => xs[i]?) by
      funext i; simp]
    rw [ih]

/-- A fuzzy pass over a table whose composite keys are pairwise distinct
keeps every row in place and removes nothing. -/
theorem removeFuzzyDuplicates_of_nodup_keys (t : Table) (th : Nat)
    (keys : List (String × String × String))
    (hk : t.rows.mapM (fuzzyKey t.cols) = .ok keys) (hnd : keys.Nodup) :
    removeFuzzyDuplicates t th = .ok (t, 0) := by
  rw [removeFuzzyDuplicates_eq t th keys hk]
  have hg : groupPairs keys.enum = keys.enum.map (fun p => (p.2, [p.1])) := by
    refine groupPairs_of_nodup keys.enum ?_
    rw [List.enum_map_snd]
    exact hnd
  have hkeylen : keys.length = t.rows.length := except_mapM_ok_length _ _ _ hk
  rw [hg]
  have hbestmap : (keys.enum.map (fun p => (p.2, [p.1]))).map
      (fun q => codeBest t q.2) = keys.enum.map Prod.fst := by
    rw [List.map_map]
    refine List.map_congr_left ?_
    intro p _
    show codeBest t [p.1] = p.1
    rfl
  have hexcmap : (keys.enum.map (fun p => (p.2, [p.1]))).map
      (fun q => groupExcess q.2) = keys.enum.map (fun _ => 0) := by
    rw [List.map_map]
    refine List.map_congr_left ?_
    intro p _
    rfl
  rw [hbestmap, hexcmap, List.enum_map_fst, hkeylen, filterMap_getElem_range]
  have hz : (keys.enum.map (fun _ => (0 : Nat))).sum = 0 := by
    induction keys.enum with
    | nil => rfl
    | cons y ys ihy => simpa using ihy
  rw [hz]

/-- Position-wise reading of a `Forall₂`. -/
theorem forall2_getD {α β : Type} {R : α → β → Prop} {l : List α} {ys : List β}
    (h : List.Forall₂ R l ys) (i : Nat) (hi : i < l.length) (d : α) (d' : β) :
    R (l.getD i d) (ys.getD i d') := by
  induction h generalizing i with
  | nil => simp at hi
  | cons hxy htail ih =>
    cases i with
    | zero => simpa using hxy
    | succ n =>
      simp only [List.getD_cons_succ]
      exact ih n (by simpa using hi)

/-- Each left element of a `Forall₂` has a related member on the right. -/
theorem forall2_mem_right {α β : Type} {R : α → β → Prop} {l : List α}
    {ys : List β} (h : List.Forall₂ R l ys) :
    ∀ x ∈ l, ∃ y ∈ ys, R x y := by
  induction h with
  | nil => intro x hx; cases hx
  | cons hxy _ ih =>
    intro x hx
    rcases List.mem_cons.mp hx with h1 | h1
    · subst h1; exact ⟨_, by simp, hxy⟩
    · obtain ⟨y, hy, hr⟩ := ih x h1
      exact ⟨y, by simp [hy], hr⟩

/-- `mapM` over a mapped list succeeds pointwise. -/
theorem except_mapM_map_ok {α β γ : Type} (f : β → Except String γ) (g : α → β)
    (k : α → γ) (l : List α) (hp : ∀ x ∈ l, f (g x) = .ok (k x)) :
    (l.map g).mapM f = .ok (l.map k) := by
  induction l with
  | nil => rfl
  | cons x xs ih =>
    rw [List.map_cons, List.mapM_cons, hp x (by simp), except_bind_ok,
      ih (fun y hy => hp y (by simp [hy])), except_bind_ok, List.map_cons]
    rfl

/-- Distinct images of a successful `mapM` force distinct inputs (the key
computation is a function of the row). -/
theorem nodup_of_mapM_ok_nodup {α β : Type} (f : α → Except String β)
    (l : List α) (ys : List β) (h : l.mapM f = .ok ys) (hnd : ys.Nodup) :
    l.Nodup := by
  have h2 := (except_mapM_ok_iff f l ys).mp h
  clear h
  induction h2 with
  | nil => exact List.nodup_nil
  | cons hxy htail ih =>
    rename_i x y xs ys'
    rw [List.nodup_cons] at hnd ⊢
    refine ⟨?_, ih hnd.2⟩
    intro hx
    obtain ⟨y', hy', hr⟩ := forall2_mem_right htail x hx
    rw [hxy] at hr
    injection hr with he
    exact hnd.1 (he ▸ hy')

/-- The fuzzy pass keeps the column list and its surviving rows' composite
keys are exactly the bucket keys, in order. -/
theorem removeFuzzy_output_keys (t : Table) (th : Nat) (t' : Table) (rem : Nat)
    (keys : List (String × String × String))
    (hk : t.rows.mapM (fuzzyKey t.cols) = .ok keys)
    (h : removeFuzzyDuplicates t th = .ok (t', rem)) :
    t'.cols = t.cols ∧
    t'.rows.mapM (fuzzyKey t.cols) = .ok ((groupPairs keys.enum).map Prod.fst) := by
  rw [removeFuzzyDuplicates_eq t th keys hk] at h
  injection h with hval
  rw [Prod.mk.injEq] at hval
  obtain ⟨ht', _⟩ := hval
  subst ht'
  refine ⟨rfl, ?_⟩
  have hne := groupPairs_nonempty keys.enum
  have hperm := groupPairs_enum_perm keys
  have hkeylen : keys.length = t.rows.length := except_mapM_ok_length _ _ _ hk
  have hbest : ∀ q ∈ groupPairs keys.enum, codeBest t q.2 < t.rows.length := by
    intro q hq
    have hmem : codeBest t q.2 ∈ ((groupPairs keys.enum).map Prod.snd).flatten := by
      rw [List.mem_flatten]
      exact ⟨q.2, List.mem_map_of_mem Prod.snd hq, codeBest_mem t q.2 (hne q hq)⟩
    have := hperm.mem_iff.mp hmem
    rw [List.mem_range] at this
    omega
  show (((groupPairs keys.enum).map (fun q => codeBest t q.2)).filterMap
      (fun i => t.rows[i]?)).mapM (fuzzyKey t.cols) = _
  rw [filterMap_eq_map (fun i => t.rows[i]?) (fun i => t.rows.getD i []) _ ?_]
  · rw [List.map_map]
    refine except_mapM_map_ok (fuzzyKey t.cols) _ Prod.fst (groupPairs keys.enum) ?_
    intro q hq
    have hmemk : (codeBest t q.2, q.1) ∈ keys.enum :=
      groupPairs_mem keys.enum q hq (codeBest t q.2) (codeBest_mem t q.2 (hne q hq))
    have hgetk : keys[codeBest t q.2]? = some q.1 :=
      List.mem_enum_iff_getElem?.mp hmemk
    rw [List.getElem?_eq_some_iff] at hgetk
    obtain ⟨hlt, hval⟩ := hgetk
    have hf2 := (except_mapM_ok_iff (fuzzyKey t.cols) t.rows keys).mp hk
    have := forall2_getD hf2 (codeBest t q.2) (by omega) [] default
    show fuzzyKey t.cols (t.rows.getD (codeBest t q.2) []) = .ok q.1
    rw [this]
    congr 1
    rw [List.getD_eq_getElem keys default hlt]
    exact hval
  · intro i hi
    obtain ⟨q, hq, hiq⟩ := List.mem_map.mp hi
    subst hiq
    show t.rows[codeBest t q.2]? = some (t.rows.getD (codeBest t q.2) [])
    rw [List.getElem?_eq_getElem (hbest q hq),
      List.getD_eq_getElem t.rows [] (hbest q hq)]

/-- Amended C6: the duplicate-handling stage is idempotent — running
`_handle_duplicates` on the output of a successful run removes no further
rows (exact and fuzzy counts are both 0 and the table is returned
unchanged).  The full pipeline is not a fixed point because later format
standardization can re-create equal rows. -/
theorem handle_duplicates_idempotent (t t' : Table) (ex fz : Nat)
    (h : handleDuplicates t = .ok (t', ex, fz)) :
    handleDuplicates t' = .ok (t', 0, 0) := by
  simp only [handleDuplicates] at h
  split at h
  · rename_i hcond
    cases hf : removeFuzzyDuplicates { t with rows := dropDupsFirstAux [] t.rows } 88 with
    | error e =>
      rw [hf, except_bind_error] at h
      cases h
    | ok p =>
      obtain ⟨t2, fz2⟩ := p
      rw [hf, except_bind_ok] at h
      injection h with hval
      injection hval with h1 hrest
      subst h1
      cases hk : ({ t with rows := dropDupsFirstAux [] t.rows } : Table).rows.mapM
          (fuzzyKey ({ t with rows := dropDupsFirstAux [] t.rows } : Table).cols) with
      | error e =>
        rw [show removeFuzzyDuplicates { t with rows := dropDupsFirstAux [] t.rows } 88 =
          Except.error e by simp only [removeFuzzyDuplicates, hk]; rfl] at hf
        cases hf
      | ok keys =>
        obtain ⟨hcols, hmapM⟩ := removeFuzzy_output_keys _ 88 t2 fz2 keys hk hf
        have hnodupkeys := groupPairs_keys_nodup keys.enum
        have hrowsnodup : t2.rows.Nodup :=
          nodup_of_mapM_ok_nodup _ _ _ hmapM hnodupkeys
        simp only at hcols
        simp only [handleDuplicates]
        rw [dropDupsFirstAux_eq_self [] t2.rows hrowsnodup (by simp)]
        rw [show ({ t2 with rows := t2.rows } : Table) = t2 from rfl]
        rw [if_pos (by rw [hcols]; exact hcond)]
        have hid : removeFuzzyDuplicates t2 88 = .ok (t2, 0) := by
          refine removeFuzzyDuplicates_of_nodup_keys t2 88
            ((groupPairs keys.enum).map Prod.fst) ?_ hnodupkeys
          rw [hcols]
          exact hmapM
        rw [hid, except_bind_ok]
        simp
  · rename_i hcond
    injection h with hval
    injection hval with h1 hrest
    subst h1
    simp only [handleDuplicates]
    have hnd := (dropDupsFirstAux_spec [] t.rows).1
    rw [dropDupsFirstAux_eq_self [] (dropDupsFirstAux [] t.rows) hnd (by simp)]
    rw [if_neg hcond]
    simp

/-- Witness for the amended C6: a successful duplicate-handling run (one
fuzzy removal) whose output passes a second run untouched with zero
removals. -/
theorem handle_duplicates_idempotent_witness :
    handleDuplicates ⟨["name", "email", "phone", "address"],
      [[some "a nn", some "ann@other.com", some "1234567111", some "addr"],
       [some "bob", some "bob@ex.com", some "9999999", some "x"]]⟩ =
      .ok (⟨["name", "email", "phone", "address"],
        [[some "a nn", some "ann@other.com", some "1234567111", some "addr"],
         [some "bob", some "bob@ex.com", some "9999999", some "x"]]⟩, 0, 0) :=
  handle_duplicates_idempotent
    ⟨["name", "email", "phone", "address"],
      [[some "Ann", some "ann@ex.com", some "1234567890", none],
       [some "a nn", some "ann@other.com", some "1234567111", some "addr"],
       [some "bob", some "bob@ex.com", some "9999999", some "x"]]⟩
    ⟨["name", "email", "phone", "address"],
      [[some "a nn", some "ann@other.com", some "1234567111", some "addr"],
       [some "bob", some "bob@ex.com", some "9999999", some "x"]]⟩ 0 1 (by decide)
